import Mathlib

/-!
Verification of the german-verbs-db scraper against its design document.

The development shallowly embeds the repository's JavaScript sources:

* `parser.js` — `extractInfinitiveFromTitle`, `extractTextFromCell`,
  `parseConjugationRows`, `parseConjugations`, with the regular expressions
  implemented as deterministic scanners over `List Char` following the exact
  semantics of the source patterns (lazy `.*?` without the `s` flag never
  crosses a newline, `[^>]*` is a maximal run of non-`>` characters, …);
* `scrape.js` — the checkpointed state machine (`main`), embedded as a pure
  event-producing function over an environment describing fetch outcomes;
* `api.js` — the rate limiter (`waitForRateLimit` / `apiRequest`), embedded
  with explicit clock observations;
* `db.js` + `schema.sql` — `insertVerb` over a relational model of the
  `verbs` / `verb_conjugations` tables with SQLite's documented
  `INSERT OR REPLACE` + `ON DELETE CASCADE` semantics.

Possible JavaScript exceptions are modelled with `Except`; `null` with
`Option`.
-/

/-! ## Character helpers (JS regex classes) -/

/-- JS regex `\s` restricted to the characters that can occur in this data:
space, tab, newline, carriage return, vertical tab, form feed. -/
def isWs (c : Char) : Bool :=
  c = ' ' ∨ c = '\t' ∨ c = '\n' ∨ c = '\r' ∨ c = '\x0b' ∨ c = '\x0c'

/-- JS regex `\w` = `[A-Za-z0-9_]` (ASCII only; used for `\b` boundaries). -/
def isWordChar (c : Char) : Bool :=
  ('a' ≤ c ∧ c ≤ 'z') ∨ ('A' ≤ c ∧ c ≤ 'Z') ∨ ('0' ≤ c ∧ c ≤ '9') ∨ c = '_'

/-- ASCII lowercase, for the `i` regex flag. -/
def lowerC (c : Char) : Char := c.toLower

def lowerL (l : List Char) : List Char := l.map lowerC

/-- Case-insensitive prefix test (`i` flag on an alternation of literals). -/
def ciPrefix (pat s : List Char) : Bool :=
  (lowerL pat).isPrefixOf (lowerL s)

/-! ## List-of-characters utilities mirroring JS string methods -/

/-- JS `s.split(sep)` for a one-character separator: always returns at least
one (possibly empty) piece. -/
def splitOnChar (sep : Char) : List Char → List (List Char)
  | [] => [[]]
  | c :: rest =>
    match splitOnChar sep rest with
    | [] => [[]]
    | h :: t => if c = sep then [] :: h :: t else (c :: h) :: t

/-- JS `s.trim()`: drop whitespace from both ends. -/
def trimL (l : List Char) : List Char :=
  ((l.dropWhile isWs).reverse.dropWhile isWs).reverse

/-- JS `parts.join(sep)`: the separator between each adjacent pair. -/
def joinL (sep : List Char) : List (List Char) → List Char
  | [] => []
  | [p] => p
  | p :: q :: rest => p ++ sep ++ joinL sep (q :: rest)

/-! ## The cell-cleaning pipeline of `extractTextFromCell` (parser.js 16-37)

Each `String.prototype.replace(regex, r)` call with a `g` flag is embedded as
a left-to-right scan; a position where the pattern does not match contributes
its character unchanged, a match contributes the replacement and scanning
resumes after the matched text, exactly as a JS global replace does. -/

/-- Length of the match of `sup[^>]*>.*?<\/sup` (case-insensitive) at the
start of `s`, where `s` is the text following a `<`; the lazy `.*?` has no
`s` flag, so it never crosses a newline. -/
def supTailLen (s : List Char) : Option Nat :=
  if ciPrefix "sup".data s then
    let r₁ := s.drop 3
    let attrs := r₁.takeWhile (· ≠ '>')
    match r₁.drop attrs.length with
    | '>' :: r₂ =>
      (closeSup r₂).map (fun n => 3 + attrs.length + 1 + n)
    | _ => none
  else none
where
  /-- Length up to and including the first `</sup>` (case-insensitive),
  failing at a newline, as the lazy dot does. -/
  closeSup : List Char → Option Nat
    | [] => none
    | c :: rest =>
      if ciPrefix "</sup>".data (c :: rest) then some 6
      else if c = '\n' then none
      else (closeSup rest).map (· + 1)

/-- `replace(/<sup[^>]*>.*?<\/sup>/gi, "")` (parser.js line 19).  The
`fuel` argument only bounds the recursion (each step consumes at least one
character, so `fuel = l.length` never runs out); recursion on it keeps the
definition structural and hence kernel-computable. -/
def stripSupF : Nat → List Char → List Char
  | _, [] => []
  | 0, l => l
  | fuel + 1, c :: rest =>
    if c = '<' then
      match supTailLen rest with
      | some n => stripSupF fuel (rest.drop n)
      | none => c :: stripSupF fuel rest
    else c :: stripSupF fuel rest

def stripSup (l : List Char) : List Char := stripSupF l.length l

/-- `replace(/<[^>]+>/g, " ")` (parser.js line 20): a `<`, at least one
non-`>` character, then `>`, replaced by a single space. -/
def stripTagsF : Nat → List Char → List Char
  | _, [] => []
  | 0, l => l
  | fuel + 1, c :: rest =>
    if c = '<' then
      let body := rest.takeWhile (· ≠ '>')
      if body.length ≥ 1 ∧ (rest.drop body.length).head? = some '>' then
        ' ' :: stripTagsF fuel (rest.drop (body.length + 1))
      else c :: stripTagsF fuel rest
    else c :: stripTagsF fuel rest

def stripTags (l : List Char) : List Char := stripTagsF l.length l

/-- `replace(/&[^;]+;/g, " ")` (parser.js line 21). -/
def stripEntitiesF : Nat → List Char → List Char
  | _, [] => []
  | 0, l => l
  | fuel + 1, c :: rest =>
    if c = '&' then
      let body := rest.takeWhile (· ≠ ';')
      if body.length ≥ 1 ∧ (rest.drop body.length).head? = some ';' then
        ' ' :: stripEntitiesF fuel (rest.drop (body.length + 1))
      else c :: stripEntitiesF fuel rest
    else c :: stripEntitiesF fuel rest

def stripEntities (l : List Char) : List Char := stripEntitiesF l.length l

/-- `replace(/\s+/g, " ")`: every maximal whitespace run becomes one space.
The boolean argument records whether the previous character was whitespace
(so the run contributes only one space). -/
def collapseWsAux : Bool → List Char → List Char
  | _, [] => []
  | prevWs, c :: rest =>
    if isWs c then
      if prevWs then collapseWsAux true rest else ' ' :: collapseWsAux true rest
    else c :: collapseWsAux false rest

def collapseWs (l : List Char) : List Char := collapseWsAux false l

/-- At a position (with `prevW` = "previous character is a `\w` character"),
the length of the first alternative of `alts` that matches with a `\b` on
both sides, case-insensitively. All alternatives used by the source start
and end with word characters, so the left boundary is `¬prevW` and the right
boundary is "next character missing or not a word character". -/
def altAt (alts : List (List Char)) (prevW : Bool) (s : List Char) : Option Nat :=
  if prevW then none
  else alts.findSome? fun a =>
    if ciPrefix a s ∧ (((s.drop a.length).head?.map isWordChar).getD false = false)
    then some a.length else none

/-- A global `replace(/\b(alt|…)\b/gi, repl)`.  After a match the scan
resumes after the matched region; the matched region ends in a word
character, so the boundary state afterwards is `true`. -/
def replaceAltsF (alts : List (List Char)) (repl : List Char) :
    Nat → Bool → List Char → List Char
  | _, _, [] => []
  | 0, _, l => l
  | fuel + 1, prevW, c :: rest =>
    match altAt alts prevW (c :: rest) with
    | some (n + 1) => repl ++ replaceAltsF alts repl fuel true (rest.drop n)
    | _ => c :: replaceAltsF alts repl fuel (isWordChar c) rest

def replaceAlts (alts : List (List Char)) (repl : List Char)
    (prevW : Bool) (l : List Char) : List Char :=
  replaceAltsF alts repl l.length prevW l

/-- The personal-pronoun alternation `(ich|du|wir|ihr|sie)` (parser.js
line 28). -/
def pronounAlts : List (List Char) :=
  ["ich".data, "du".data, "wir".data, "ihr".data, "sie".data]

/-- The reflexive-pronoun alternation `(mich|dich|sich|uns|euch)`
(parser.js line 29). -/
def reflexiveAlts : List (List Char) :=
  ["mich".data, "dich".data, "sich".data, "uns".data, "euch".data]

/-- `extractTextFromCell` (parser.js 16-37): strip footnote `sup` elements,
then all tags and entities, collapse whitespace and trim; replace
`er/sie/es` and the personal pronouns by commas, remove reflexive pronouns,
collapse whitespace again, then split on commas, trim each piece, drop the
empty pieces and re-join with `", "`. -/
def extractTextFromCell (cell : List Char) : List Char :=
  let text := trimL (collapseWs (stripEntities (stripTags (stripSup cell))))
  let cleaned :=
    collapseWs
      (replaceAlts reflexiveAlts [] false
        (replaceAlts pronounAlts ",".data false
          (replaceAlts ["er/sie/es".data] ",".data false text)))
  joinL ", ".data (((splitOnChar ',' cleaned).map trimL).filter (· ≠ []))

/-! ## Lazy sub-matchers shared by the table regexes -/

/-- Lazy `(.*?)` followed by the literal `term`, with no `s` flag: the group
is the shortest newline-free text after which `term` starts.  Returns the
group and the text after `term`; `none` when a newline or the end of input
is reached first (the regex then fails at this start position, since `.`
cannot cross a newline). -/
def lazyNoNL (term : List Char) : List Char → Option (List Char × List Char)
  | [] => if term.isPrefixOf ([] : List Char) then some ([], []) else none
  | c :: rest =>
    if term.isPrefixOf (c :: rest) then some ([], (c :: rest).drop term.length)
    else if c = '\n' then none
    else (lazyNoNL term rest).map (fun p => (c :: p.1, p.2))

/-- Lazy `(.*?)` with the `s` flag, ended by the first position where
`termAt` holds: returns the group (the text before that position). -/
def lazyUntil (termAt : List Char → Bool) : List Char → Option (List Char)
  | [] => if termAt [] then some [] else none
  | c :: rest =>
    if termAt (c :: rest) then some []
    else (lazyUntil termAt rest).map (c :: ·)

/-- `.*?lit` with the `s` flag: the text after the first occurrence of the
literal `lit`; `none` when `lit` does not occur.  (The following pattern
pieces are again of the form `.*?…`, so no backtracking past the first
occurrence can succeed if continuing from it fails; taking the first
occurrence is therefore exact.) -/
def skipToSub (lit : List Char) : List Char → Option (List Char)
  | [] => if lit.isPrefixOf ([] : List Char) then some [] else none
  | c :: rest =>
    if lit.isPrefixOf (c :: rest) then some ((c :: rest).drop lit.length)
    else skipToSub lit rest

/-! ## The inner cell regex `/<td>(.*?)\n<\/td>/` (parser.js 47-52) -/

/-- Match of the cell regex anchored at the start of `s`: the literal
`<td>`, a newline-free lazy group, then `\n</td>`. -/
def cellMatchAt (s : List Char) : Option (List Char) :=
  if "<td>".data.isPrefixOf s then
    match lazyNoNL "\n</td>".data (s.drop 4) with
    | some (g, _) => some g
    | none => none
  else none

/-- JS `row.match(/<td>(.*?)\n<\/td>/)[1]`: the group of the first match,
searching every start position left to right. -/
def cellSearch : List Char → Option (List Char)
  | [] => none
  | c :: rest =>
    match cellMatchAt (c :: rest) with
    | some g => some g
    | none => cellSearch rest

/-! ## The row regex (parser.js 93-94 and its five copies)

`/<tr>\n<td[^>]*><small>(.*?)<\/small>\n<\/td>\n<td>(.*?)\n<\/td>/g` -/

/-- Match of the row regex anchored at the start of `s`.  Returns the full
matched text (rebuilt from its pieces, so its shape is explicit) and the
text after the match (where a `g`-flag scan resumes). -/
def rowMatchAt (s : List Char) : Option (List Char × List Char) :=
  if "<tr>\n<td".data.isPrefixOf s then
    let r₁ := s.drop 8
    let attrs := r₁.takeWhile (· ≠ '>')
    let r₂ := r₁.drop attrs.length
    if "><small>".data.isPrefixOf r₂ then
      match lazyNoNL "</small>\n</td>\n<td>".data (r₂.drop 8) with
      | some (g₁, r₃) =>
        match lazyNoNL "\n</td>".data r₃ with
        | some (g₂, r₄) =>
          some ("<tr>\n<td".data ++ attrs ++ "><small>".data ++ g₁ ++
                "</small>\n</td>\n<td>".data ++ g₂ ++ "\n</td>".data, r₄)
        | none => none
      | none => none
    else none
  else none

theorem lazyNoNL_rest_length {term s : List Char} {g r : List Char}
    (h : lazyNoNL term s = some (g, r)) : r.length ≤ s.length := by
  induction s generalizing g r with
  | nil =>
    simp only [lazyNoNL] at h
    split at h <;> simp_all
  | cons c rest ih =>
    simp only [lazyNoNL] at h
    split at h
    · simp only [Option.some.injEq, Prod.mk.injEq] at h
      obtain ⟨-, rfl⟩ := h
      simp [List.length_drop]
    · split at h
      · exact absurd h (by simp)
      · cases hrec : lazyNoNL term rest with
        | none => rw [hrec] at h; simp at h
        | some p =>
          rw [hrec] at h
          simp only [Option.map_some', Option.some.injEq] at h
          obtain ⟨g', r'⟩ := p
          cases h
          have := ih hrec
          simp; omega

theorem rowMatchAt_rest_length {s : List Char} {m r : List Char}
    (h : rowMatchAt s = some (m, r)) : r.length < s.length := by
  unfold rowMatchAt at h
  split at h
  case isFalse => exact absurd h (by simp)
  case isTrue hpre =>
    simp only [] at h
    split at h
    case isFalse => exact absurd h (by simp)
    case isTrue hpre2 =>
      split at h
      case h_2 => exact absurd h (by simp)
      case h_1 g₁ r₃ h1 =>
        split at h
        case h_2 => exact absurd h (by simp)
        case h_1 g₂ r₄ h2 =>
          simp only [Option.some.injEq, Prod.mk.injEq] at h
          obtain ⟨-, rfl⟩ := h
          have l1 := lazyNoNL_rest_length h1
          have l2 := lazyNoNL_rest_length h2
          have hlen : 8 ≤ s.length := by
            have := List.IsPrefix.length_le
              (List.isPrefixOf_iff_prefix.mp hpre)
            simpa using this
          simp only [List.length_drop] at l1 l2 ⊢
          omega

/-- All matches of the row regex (`String.prototype.match` with `g`):
scan left to right, and after a match resume after the matched text.  Fuel
as in `stripSupF`: a match consumes at least one character
(`rowMatchAt_rest_length`), so `fuel = s.length` never runs out. -/
def rowSearchF : Nat → List Char → List (List Char)
  | _, [] => []
  | 0, _ => []
  | fuel + 1, c :: rest =>
    match rowMatchAt (c :: rest) with
    | some (m, r) => m :: rowSearchF fuel r
    | none => rowSearchF fuel rest

def rowSearch (s : List Char) : List (List Char) := rowSearchF s.length s

/-! ## The tense-section regexes (parser.js 88-157)

Each tense is located by a pattern of the shape
`/<td colspan="\d+"[^>]*>.*?<b>.*?LABEL<\/a><\/b>\n<\/td><\/tr>(.*?)TERM/s`
where `TERM` is `<td colspan="\d+"[^>]*><span` for Pr채sens, Pr채teritum,
Perfekt and Futur I, and the literal `<\/tbody><\/table>` for
Plusquamperfekt and Futur II.  (The repository's parser source literally
contains the character U+CC44 in the two umlaut labels; the embedding keeps
those exact characters.)  With the `s` flag every quantifier is lazy, so
each `.*?LIT` piece ends at the first occurrence of `LIT`; failing later
cannot be repaired by choosing a later occurrence, so the scan is exact. -/

/-- Consume `<td colspan="\d+"[^>]*>` at the start of `s`; the text after. -/
def colspanOpen (s : List Char) : Option (List Char) :=
  if "<td colspan=\"".data.isPrefixOf s then
    let r₁ := s.drop 13
    let ds := r₁.takeWhile Char.isDigit
    if ds.length ≥ 1 then
      match r₁.drop ds.length with
      | '"' :: r₂ =>
        let attrs := r₂.takeWhile (· ≠ '>')
        match r₂.drop attrs.length with
        | '>' :: r₃ => some r₃
        | _ => none
      | _ => none
    else none
  else none

/-- Does `<td colspan="\d+"[^>]*><span` match at the start of `s`? -/
def termSpanAt (s : List Char) : Bool :=
  if "<td colspan=\"".data.isPrefixOf s then
    let r₁ := s.drop 13
    let ds := r₁.takeWhile Char.isDigit
    if ds.length ≥ 1 then
      match r₁.drop ds.length with
      | '"' :: r₂ => "><span".data.isPrefixOf (r₂.drop (r₂.takeWhile (· ≠ '>')).length)
      | _ => false
    else false
  else false

/-- Does the literal `</tbody></table>` match at the start of `s`? -/
def termTblAt (s : List Char) : Bool :=
  "</tbody></table>".data.isPrefixOf s

/-- The whole section pattern anchored at the start of `s`: returns the
parenthesised group (the text between the labelled heading row and the
terminator). -/
def sectionAt (label : List Char) (termAt : List Char → Bool) (s : List Char) :
    Option (List Char) := do
  let r₁ ← colspanOpen s
  let r₂ ← skipToSub "<b>".data r₁
  let r₃ ← skipToSub label r₂
  lazyUntil termAt r₃

/-- `text.match(sectionRegex)`: leftmost start position where the whole
pattern matches; the group of that match. -/
def sectionSearch (label : List Char) (termAt : List Char → Bool) :
    List Char → Option (List Char)
  | [] => none
  | c :: rest =>
    match sectionAt label termAt (c :: rest) with
    | some g => some g
    | none => sectionSearch label termAt rest

/-! ## The parser's data shapes and row extraction -/

/-- The six person/number slots of one tense.  The source represents a tense
with a missing heading or fewer than six rows as the empty object; every
consumer only reads the six keys, for which the empty object yields a falsy
value, so the empty object is represented as six empty strings. -/
structure SlotSet where
  sg1 : String
  sg2 : String
  sg3 : String
  pl1 : String
  pl2 : String
  pl3 : String
deriving Repr, DecidableEq

def emptySlots : SlotSet := ⟨"", "", "", "", "", ""⟩

/-- `row.match(/<td>(.*?)\n<\/td>/)[1]`: when the row has no such match the
source indexes `[1]` on `null` and throws; the throw is the `.error` case. -/
def cellOf (row : List Char) : Except Unit (List Char) :=
  match cellSearch row with
  | some g => .ok g
  | none => .error ()

/-- `parseConjugationRows` (parser.js 43-54): fewer than six rows (or a
`null` match result, which this list model renders as `[]`) yields the
empty slot set; otherwise the first six rows each contribute one slot. -/
def parseConjugationRows (rows : List (List Char)) : Except Unit SlotSet :=
  match rows with
  | r0 :: r1 :: r2 :: r3 :: r4 :: r5 :: _ => do
    let c0 ← cellOf r0
    let c1 ← cellOf r1
    let c2 ← cellOf r2
    let c3 ← cellOf r3
    let c4 ← cellOf r4
    let c5 ← cellOf r5
    .ok ⟨String.mk (extractTextFromCell c0), String.mk (extractTextFromCell c1),
         String.mk (extractTextFromCell c2), String.mk (extractTextFromCell c3),
         String.mk (extractTextFromCell c4), String.mk (extractTextFromCell c5)⟩
  | _ => .ok emptySlots

/-- One tense of `parseConjugations`: locate the section; a missing section
yields the empty record, a located one is row-matched and extracted. -/
def tenseSlots (label : List Char) (termAt : List Char → Bool)
    (text : List Char) : Except Unit SlotSet :=
  match sectionSearch label termAt text with
  | none => .ok emptySlots
  | some g => parseConjugationRows (rowSearch g)

/-! ## The h2 heading and the infinitive (parser.js 75-85) -/

/-- `<h2[^>]*>(.*?)<\/h2>` anchored at the start of `s` (no `s` flag: the
group is newline-free). -/
def h2At (s : List Char) : Option (List Char) :=
  if "<h2".data.isPrefixOf s then
    let r₁ := s.drop 3
    let attrs := r₁.takeWhile (· ≠ '>')
    match r₁.drop attrs.length with
    | '>' :: r₂ =>
      match lazyNoNL "</h2>".data r₂ with
      | some (g, _) => some g
      | none => none
    | _ => none
  else none

def h2Search : List Char → Option (List Char)
  | [] => none
  | c :: rest =>
    match h2At (c :: rest) with
    | some g => some g
    | none => h2Search rest

/-- `replace(/<[^>]+>/g, "")` (parser.js line 79: tags removed with an empty
replacement, unlike the cell pipeline's space). -/
def stripTagsEmptyF : Nat → List Char → List Char
  | _, [] => []
  | 0, l => l
  | fuel + 1, c :: rest =>
    if c = '<' then
      let body := rest.takeWhile (· ≠ '>')
      if body.length ≥ 1 ∧ (rest.drop body.length).head? = some '>' then
        stripTagsEmptyF fuel (rest.drop (body.length + 1))
      else c :: stripTagsEmptyF fuel rest
    else c :: stripTagsEmptyF fuel rest

def stripTagsEmpty (l : List Char) : List Char := stripTagsEmptyF l.length l

/-- `^([^\s(]+)\s*\(Konjugation\)` on the tag-stripped heading text. -/
def infMatch (h2Text : List Char) : Option (List Char) :=
  let tok := h2Text.takeWhile (fun c => ¬ isWs c ∧ c ≠ '(')
  if tok.length ≥ 1 then
    if "(Konjugation)".data.isPrefixOf ((h2Text.drop tok.length).dropWhile isWs)
    then some tok else none
  else none

/-! ## `parseConjugations` (parser.js 61-177) -/

structure ParsedVerb where
  separablePrefix : String
  infinitive : String
  praesens : SlotSet
  praeteritum : SlotSet
  perfekt : SlotSet
  plusquamperfekt : SlotSet
  futur1 : SlotSet
  futur2 : SlotSet
deriving Repr, DecidableEq

def praesensLabel : List Char := "Pr채sens</a></b>\n</td></tr>".data

def praeteritumLabel : List Char := "Pr채teritum</a></b>\n</td></tr>".data

def perfektLabel : List Char := "Perfekt</a></b>\n</td></tr>".data

def plusquamperfektLabel : List Char := "Plusquamperfekt</a></b>\n</td></tr>".data

def futur1Label : List Char := "Futur I</a></b>\n</td></tr>".data

def futur2Label : List Char := "Futur II</a></b>\n</td></tr>".data

/-- The infinitive taken from the first `h2` heading (parser.js 75-85):
empty when there is no heading or the heading does not look like
`… (Konjugation)`. -/
def infOf (text : List Char) : List Char :=
  match h2Search text with
  | none => []
  | some g =>
    match infMatch (stripTagsEmpty g) with
    | some tok => tok
    | none => []

/-- The record built by `parseConjugations` before separable-prefix
detection (parser.js 64-157): `separablePrefix` still holds its initial
value `""`. -/
def parseBase (text : List Char) : Except Unit ParsedVerb := do
  let infinitive := infOf text
  let praesens ← tenseSlots praesensLabel termSpanAt text
  let praeteritum ← tenseSlots praeteritumLabel termSpanAt text
  let perfekt ← tenseSlots perfektLabel termSpanAt text
  let plusquamperfekt ← tenseSlots plusquamperfektLabel termTblAt text
  let futur1 ← tenseSlots futur1Label termSpanAt text
  let futur2 ← tenseSlots futur2Label termTblAt text
  .ok ⟨"", String.mk infinitive, praesens, praeteritum, perfekt,
       plusquamperfekt, futur1, futur2⟩

/-- `/^(mich|dich|sich|uns|euch)$/i.test(p)` (parser.js line 167). -/
def isReflexTok (p : List Char) : Bool :=
  reflexiveAlts.any (fun a => lowerL p = a)

/-- Separable-prefix detection (parser.js 161-174), as a function of the
pr채sens `sg1` slot value. -/
def detectPrefix (sg1 : List Char) : List Char :=
  if sg1 = [] then []
  else
    let firstForm := trimL ((splitOnChar ',' sg1).headD [])
    if firstForm.contains ' ' then
      let parts := splitOnChar ' ' firstForm
      if parts.length ≥ 2 then
        joinL " ".data ((parts.drop 1).filter (fun p => ¬ isReflexTok p))
      else []
    else []

/-- `parseConjugations` on a non-empty input: the base record with the
detected separable prefix filled in. -/
def parseBodyE (text : List Char) : Except Unit ParsedVerb :=
  (parseBase text).map fun base =>
    { base with separablePrefix := String.mk (detectPrefix base.praesens.sg1.data) }

/-- `parseConjugations(text)` (parser.js 61-177): `null`/empty text returns
`null` (`.ok none`); a thrown exception would be `.error`. -/
def parseConjugationsE : Option String → Except Unit (Option ParsedVerb)
  | none => .ok none
  | some s => if s = "" then .ok none else (parseBodyE s.data).map some

/-- `extractInfinitiveFromTitle` (parser.js 7-10):
`pageTitle?.match(/^Flexion:(.+)$/)` — without the `s` and `m` flags the
remainder after `Flexion:` must be non-empty and newline-free. -/
def extractInfinitiveFromTitle : Option String → Option String
  | none => none
  | some t =>
    if "Flexion:".data.isPrefixOf t.data then
      let rest := t.data.drop 8
      if rest.length ≥ 1 ∧ rest.all (· ≠ '\n') then some (String.mk rest)
      else none
    else none

/-! ## The completeness check (scrape.js 26-31) -/

/-- `hasAllForms`: every one of the six slots is truthy, not the em-dash
placeholder, and not whitespace-only. -/
def hasAllForms (f : SlotSet) : Bool :=
  [f.sg1, f.sg2, f.sg3, f.pl1, f.pl2, f.pl3].all fun v =>
    v ≠ "" ∧ v ≠ "—" ∧ trimL v.data ≠ []

/-! ## The scraper state (state.js) and the processing loop (scrape.js) -/

inductive Phase
  | fetchingVerbs
  | fetchingConjugations
  | completed
deriving Repr, DecidableEq

/-- `ScraperState` (state.js 271-277).  The `lastUpdated` timestamp is pure
logging metadata and is not modelled. -/
structure ScraperState where
  phase : Phase
  verbListContinueToken : Option String
  verbList : List String
  processedVerbIndex : Int
deriving Repr, DecidableEq

/-- `getDefaultState()` (state.js 283-291). -/
def defaultState : ScraperState := ⟨.fetchingVerbs, none, [], -1⟩

/-- The two kinds the per-title catch distinguishes: an error whose message
starts with `RATE_LIMIT`, and everything else (`unexpected` distinguishes a
plain transport failure from an unexpected one; the source never reads it,
since its catch only tests the message). -/
inductive ScrapeError
  | rateLimit
  | other (unexpected : Bool)
deriving Repr, DecidableEq

/-- Outcome of `getPageText` for one title: a body, `null` (no Flexion
page), or a throw. -/
inductive FetchResult
  | ok (wikitext : String)
  | noPage
  | err (e : ScrapeError)
deriving Repr, DecidableEq

/-- Arguments of the `insertVerb` call (scrape.js 186-191). -/
structure VerbArgs where
  infinitive : String
  separablePrefix : Option String
  isIrregular : Bool
  usagePopularity : Int
deriving Repr, DecidableEq

inductive DbWrite
  | verb (args : VerbArgs)
  | conj (tense : String) (forms : SlotSet)
deriving Repr, DecidableEq

/-- Observable events of a run: reaching a title index, a persistence
write, a `saveState` checkpoint, a `process.exit`. -/
inductive Ev
  | handle (i : Nat)
  | write (w : DbWrite)
  | save (s : ScraperState)
  | exitProc (code : Nat)
deriving Repr, DecidableEq

def verbInsertArgs (infinitive : String) (c : ParsedVerb) : VerbArgs :=
  ⟨infinitive, some c.separablePrefix, true, 0⟩

/-- `validTenses` (scrape.js 149-173): of the three required tenses, those
whose six slots are complete, in source order.  (The `conjugations.praesens
&&` guards always pass: the parser always materialises the six tense
objects.) -/
def validTenses (c : ParsedVerb) : List (String × SlotSet) :=
  (if hasAllForms c.praesens then [("praesens", c.praesens)] else []) ++
  (if hasAllForms c.praeteritum then [("praeteritum", c.praeteritum)] else []) ++
  (if hasAllForms c.perfekt then [("perfekt", c.perfekt)] else [])

/-- The writes issued for one parsed verb (scrape.js 175-201): nothing
unless all three required tenses are valid, else the verb row followed by
one conjugation row per valid tense. -/
def stepWrites (infinitive : String) (c : ParsedVerb) : List DbWrite :=
  let valid := validTenses c
  if valid.length < 3 then []
  else .verb (verbInsertArgs infinitive c) :: valid.map fun tf => .conj tf.1 tf.2

def titleInf (verbList : List String) (i : Nat) : Option String :=
  extractInfinitiveFromTitle (some (verbList.getD i ""))

/-- `!infinitive || infinitive.includes(" ")` (scrape.js 118) negated: the
title leads to a page fetch. -/
def titleFetchable (verbList : List String) (i : Nat) : Bool :=
  match titleInf verbList i with
  | none => false
  | some inf => ¬(inf = "" ∨ inf.data.contains ' ')

/-- Does iteration `i` hit the fatal rate-limit branch (scrape.js 203-213)?
Only a fetched title can raise `RATE_LIMIT`. -/
def titleStops (env : Nat → FetchResult) (verbList : List String) (i : Nat) :
    Bool :=
  titleFetchable verbList i && decide (env i = .err .rateLimit)

/-- The writes of iteration `i`: none when the title is skipped (no or
whitespace infinitive, no page, unparseable), none when a non-rate-limit
error is thrown (scrape.js 214: logged, loop continues), else `stepWrites`.
`w = ""` mirrors the `|| null` coercion in `getPageText` (api.js 148)
followed by `if (!wikitext)`. -/
def titleWrites (env : Nat → FetchResult) (verbList : List String) (i : Nat) :
    List DbWrite :=
  if titleFetchable verbList i then
    match env i, titleInf verbList i with
    | .ok w, some inf =>
      if w = "" then []
      else
        match parseConjugationsE (some w) with
        | .error _ => []
        | .ok none => []
        | .ok (some c) => stepWrites inf c
    | _, _ => []
  else []

/-- `state.processedVerbIndex = i; saveState(state)` (scrape.js 217-218). -/
def advanceSt (s : ScraperState) (i : Nat) : ScraperState :=
  { s with processedVerbIndex := (i : Int) }

/-- `state.processedVerbIndex = i - 1` before the fatal stop
(scrape.js 210). -/
def rlSt (s : ScraperState) (i : Nat) : ScraperState :=
  { s with processedVerbIndex := (i : Int) - 1 }

/-- The events of one loop iteration (scrape.js 114-219): on the fatal
rate-limit branch checkpoint `i - 1` and exit 1; otherwise the iteration's
writes, then the unconditional checkpoint at cursor `i`. -/
def titleEvents (env : Nat → FetchResult) (s : ScraperState) (i : Nat) :
    List Ev :=
  .handle i ::
    (if titleStops env s.verbList i then [.save (rlSt s i), .exitProc 1]
     else (titleWrites env s.verbList i).map .write ++ [.save (advanceSt s i)])

/-- The processing loop over the remaining indices, followed by
`state.phase = "completed"; saveState(state)` (scrape.js 221-222). -/
def processIdx (env : Nat → FetchResult) : ScraperState → List Nat → List Ev
  | s, [] => [.save { s with phase := .completed }]
  | s, i :: rest =>
    titleEvents env s i ++
      (if titleStops env s.verbList i then []
       else processIdx env (advanceSt s i) rest)

/-- `const startIndex = state.processedVerbIndex + 1` (scrape.js 111). -/
def startIndex (s : ScraperState) : Nat := (s.processedVerbIndex + 1).toNat

/-- Phase 2 of `main`: iterate `verbList` from `startIndex` to the end. -/
def processEvents (env : Nat → FetchResult) (s : ScraperState) : List Ev :=
  processIdx env s (List.range' (startIndex s) (s.verbList.length - startIndex s))

/-! ## Phase 1: enumeration (api.js 99-128 driven by scrape.js 74-105) -/

/-- One observed response of `getCategoryMembers`: a page of members plus
continuation token, or a throw. -/
inductive EnumStep
  | page (members : List String) (tok : Option String)
  | fail (e : ScrapeError)
deriving Repr, DecidableEq

/-- `data.continue?.cmcontinue || null` (api.js 87): an absent or empty
token becomes `null`. -/
def normToken : Option String → Option String
  | none => none
  | some t => if t = "" then none else some t

/-- `getAllCategoryMembers` with the checkpointing `onProgress` callback of
scrape.js 88-96: per page, append the members, store the token, save; loop
while the token is truthy.  A throw reaches `main`'s outer catch, which
saves the current state and exits 1.  `fuel` bounds the do-while (the JS
loop may in principle run forever on an adversarial token sequence); fuel
exhaustion aborts without producing further events. -/
def enumAppend (s : ScraperState) (ms : List String) (tok : Option String) :
    ScraperState :=
  { s with
    verbList := s.verbList ++ ms,
    verbListContinueToken := normToken tok }

def runEnum (pages : Nat → EnumStep) :
    Nat → ScraperState → Nat → ScraperState × List Ev × Bool
  | 0, s, _ => (s, [], true)
  | fuel + 1, s, k =>
    match pages k with
    | .fail _ => (s, [.save s, .exitProc 1], true)
    | .page ms tok =>
      let s' := enumAppend s ms tok
      if (normToken tok).isSome then
        let r := runEnum pages fuel s' (k + 1)
        (r.1, .save s' :: r.2.1, r.2.2)
      else (s', [.save s'], false)

/-- `main(resume, incompleteMode)` from the loaded (or default) state `s₀`
(scrape.js 72-223): phase 1 fills `verbList` — from the incomplete-verbs
query (the titles re-prefixed with `Flexion:`, scrape.js 79-81) or from the
category enumeration — then the phase transition is checkpointed and
phase 2 runs.  Database writes are assumed not to throw. -/
def runScrape (incompleteMode : Bool) (pages : Nat → EnumStep) (fuel : Nat)
    (incompleteList : List String) (env : Nat → FetchResult)
    (s₀ : ScraperState) : List Ev :=
  let p1 : ScraperState × List Ev × Bool :=
    if s₀.phase = .fetchingVerbs then
      if incompleteMode then
        ({ s₀ with verbList := incompleteList.map fun v => "Flexion:" ++ v },
         [], false)
      else runEnum pages fuel s₀ 0
    else (s₀, [], false)
  if p1.2.2 then p1.2.1
  else
    let s₂ :=
      if s₀.phase = .fetchingVerbs then { p1.1 with phase := .fetchingConjugations }
      else p1.1
    let evs₂ :=
      if s₀.phase = .fetchingVerbs then p1.2.1 ++ [.save s₂]
      else p1.2.1
    if s₂.phase = .fetchingConjugations then evs₂ ++ processEvents env s₂
    else evs₂

/-- The checkpointed states of a run, in order. -/
def savesOf (evs : List Ev) : List ScraperState :=
  evs.filterMap fun e => match e with | .save s => some s | _ => none

/-- The title indices a run has handled, in order. -/
def handledIdx (evs : List Ev) : List Nat :=
  evs.filterMap fun e => match e with | .handle i => some i | _ => none

/-! ## The rate limiter (api.js 6-27, 36-37) -/

def RATE_LIMIT_MS : Int := 100

inductive CallKind
  | enumeration
  | pageFetch
deriving Repr, DecidableEq

/-- One `apiRequest` call, with the clock readings it observes: `now` at
entry to `waitForRateLimit` and `now2` at the `lastRequestTime = Date.now()`
assignment after the conditional sleep. -/
structure ApiCall where
  kind : CallKind
  now : Int
  now2 : Int
deriving Repr, DecidableEq

/-- The sleep `waitForRateLimit` inserts before re-reading the clock
(api.js 21-24): `RATE_LIMIT_MS - (now - lastRequestTime)` when the interval
has not elapsed, nothing otherwise. -/
def requiredWait (last now : Int) : Int :=
  if now - last < RATE_LIMIT_MS then RATE_LIMIT_MS - (now - last) else 0

/-- The clock model: time never runs backwards between an assignment to
`lastRequestTime` and the next reading, and `setTimeout(w)` resumes no
earlier than `w` milliseconds after it was entered. -/
def validCall (last : Int) (c : ApiCall) : Bool :=
  decide (last ≤ c.now) && decide (c.now + requiredWait last c.now ≤ c.now2)

def validTrace : Int → List ApiCall → Bool
  | _, [] => true
  | last, c :: rest => validCall last c && validTrace c.now2 rest

/-- The time at which each call starts (its `lastRequestTime = Date.now()`
value, immediately before `fetch`), shared process-wide across both call
kinds. -/
def callTimes : Int → List ApiCall → List Int
  | _, [] => []
  | _, c :: rest => c.now2 :: callTimes c.now2 rest

/-! ## The persistence layer (db.js 145-192 over schema.sql) -/

structure VerbRow where
  id : Nat
  infinitive : String
  separable_prefix : Option String
  is_irregular : Nat
  usage_popularity : Int
deriving Repr, DecidableEq

structure ConjRow where
  verb_id : Nat
  tense : String
  sg1 : String
  sg2 : String
  sg3 : String
  pl1 : String
  pl2 : String
  pl3 : String
  notes : Option String
deriving Repr, DecidableEq

/-- The two tables the scraper writes, plus the `AUTOINCREMENT` high-water
mark of `verbs.id` (SQLite's `sqlite_sequence`: a fresh row always gets
`seq + 1`, never a reused id). -/
structure Db where
  verbs : List VerbRow
  verb_conjugations : List ConjRow
  seq : Nat
deriving Repr, DecidableEq

/-- Ids were issued by the sequence. -/
def dbWf (db : Db) : Bool := db.verbs.all fun r => r.id ≤ db.seq

/-- `insertVerb` (db.js 145-175): `INSERT OR REPLACE INTO verbs …`.  With
`PRAGMA foreign_keys = ON` (db.js 128, schema.sql 1), `REPLACE` resolution
deletes every row conflicting on `UNIQUE (infinitive)` and `ON DELETE
CASCADE` (schema.sql 377) removes its `verb_conjugations` rows; the new row
is inserted with a fresh `AUTOINCREMENT` id.  `sqlite3_changes` counts the
inserted row and not the auxiliary REPLACE deletions, so `changes` is `1`
for a successful statement; the source's `changes === 0` fallback re-reads
the id by infinitive. -/
def insertVerb (db : Db) (v : VerbArgs) : Db × Nat :=
  let conflicts := db.verbs.filter fun r => r.infinitive = v.infinitive
  let kept := db.verbs.filter fun r => r.infinitive ≠ v.infinitive
  let newId := db.seq + 1
  let row : VerbRow := ⟨newId, v.infinitive, v.separablePrefix,
                        if v.isIrregular then 1 else 0, v.usagePopularity⟩
  let conj := db.verb_conjugations.filter fun c =>
    conflicts.all fun r => r.id ≠ c.verb_id
  let db' : Db := ⟨kept ++ [row], conj, newId⟩
  let changes : Nat := 1
  if changes = 0 then
    (db', (((db'.verbs.find? fun r => r.infinitive = v.infinitive).map
      fun r => r.id).getD 0))
  else (db', newId)

/-- `insertConjugation` (db.js 182-192): `INSERT OR REPLACE` on the primary
key `(verb_id, tense)`. -/
def insertConjugation (db : Db) (c : ConjRow) : Db :=
  ⟨db.verbs,
   (db.verb_conjugations.filter fun r =>
     ¬(r.verb_id = c.verb_id ∧ r.tense = c.tense)) ++ [c],
   db.seq⟩

/-! ## Definitions written from the specification's words (for comparison
with the source-derived ones) -/

/-- Spec §4.3 step 5: the "whitespace-delimited tokens" of a slot value.
Slot values are produced by `extractTextFromCell`, whose final collapse
leaves a single ASCII space as the only whitespace, so the tokens are the
non-empty pieces between spaces. -/
def wsTokens (l : List Char) : List (List Char) :=
  (splitOnChar ' ' l).filter (· ≠ [])

/-- Spec §4.3 step 5, verbatim: take the first comma-delimited alternative
of the present-tense first-person-singular slot; if it contains an internal
space, the separable prefix is the tokens after the first, excluding
reflexive-pronoun tokens, joined by spaces; no space, no prefix. -/
def specSepPrefix (sg1 : List Char) : List Char :=
  let firstForm := trimL ((splitOnChar ',' sg1).headD [])
  if firstForm.contains ' ' then
    joinL " ".data (((wsTokens firstForm).drop 1).filter fun p => ¬ isReflexTok p)
  else []

/-- Spec §3 AcceptedVerb: the tenses of the parsed verb that individually
pass the six-slot completeness check, required trio first, then the
optional tenses. -/
def specCompleteTenses (c : ParsedVerb) : List (String × SlotSet) :=
  ([("praesens", c.praesens), ("praeteritum", c.praeteritum),
    ("perfekt", c.perfekt), ("plusquamperfekt", c.plusquamperfekt),
    ("futur1", c.futur1), ("futur2", c.futur2)]).filter fun tf => hasAllForms tf.2

/-- Claim C4's description of the downstream record: the `ParsedVerb`
restricted to exactly the complete tenses, written iff the required trio is
among them. -/
def specAcceptedWrites (infinitive : String) (c : ParsedVerb) : List DbWrite :=
  if ["praesens", "praeteritum", "perfekt"].all
      (fun t => (specCompleteTenses c).any fun tf => tf.1 = t) then
    .verb (verbInsertArgs infinitive c) ::
      (specCompleteTenses c).map fun tf => .conj tf.1 tf.2
  else []

/-- Spec §3 ScrapeState invariant, first conjunct: `cursor <
titleList.length`. -/
def invCursor (s : ScraperState) : Bool :=
  s.processedVerbIndex < (s.verbList.length : Int)

/-- Spec §3 ScrapeState invariant, second conjunct: the continuation token
is non-null only while enumerating. -/
def invToken (s : ScraperState) : Bool :=
  s.verbListContinueToken = none ∨ s.phase = .fetchingVerbs

/-! ## C6: minimum spacing of outbound calls -/

theorem validCall_spacing {last : Int} {c : ApiCall} (h : validCall last c = true) :
    last + RATE_LIMIT_MS ≤ c.now2 := by
  simp only [validCall, requiredWait, RATE_LIMIT_MS, decide_eq_true_eq,
    Bool.and_eq_true] at h
  obtain ⟨h1, h2⟩ := h
  show last + 100 ≤ c.now2
  split at h2 <;> omega

/-- C6.  For every sequence of outbound calls issued through the
rate-limited client — interleaving enumeration-page calls and per-title
page calls, all sharing the one process-wide `lastRequestTime` — the start
times of consecutive calls are at least `RATE_LIMIT_MS` (100 ms) apart,
whenever the clock observations are consistent (monotone clock, `setTimeout`
never resumes early). -/
theorem C6_rate_limit_spacing (last : Int) (calls : List ApiCall)
    (h : validTrace last calls = true) :
    List.Chain' (fun a b => a + RATE_LIMIT_MS ≤ b) (callTimes last calls) := by
  induction calls generalizing last with
  | nil => simp [callTimes]
  | cons c rest ih =>
    simp only [validTrace, Bool.and_eq_true] at h
    obtain ⟨hc, hrest⟩ := h
    cases rest with
    | nil => simp [callTimes]
    | cons c' rest' =>
      simp only [callTimes, List.chain'_cons] at ih ⊢
      constructor
      · simp only [validTrace, Bool.and_eq_true] at hrest
        exact validCall_spacing hrest.1
      · exact ih c.now2 hrest

def c6Trace : List ApiCall :=
  [⟨.enumeration, 5, 105⟩, ⟨.pageFetch, 110, 205⟩, ⟨.pageFetch, 400, 400⟩]

/-- Witness for C6 at a concrete interleaved trace. -/
theorem C6_rate_limit_spacing_witness :
    validTrace 0 c6Trace = true ∧
      List.Chain' (fun a b => a + RATE_LIMIT_MS ≤ b) (callTimes 0 c6Trace) :=
  ⟨by decide, C6_rate_limit_spacing 0 c6Trace (by decide)⟩

/-! ## C9: `insertVerb` on an existing infinitive -/

/-- C9.  Upserting a verb whose infinitive already exists is not
conjugation-preserving: `insertVerb` uses `INSERT OR REPLACE`, which (a)
returns a fresh autoincrement id through the non-fallback branch, (b) never
the existing row's id, (c) removes — via `ON DELETE CASCADE` — every
`verb_conjugations` row of the replaced verb, (d) deletes the existing
`verbs` row itself, and (e) touches no other conjugation row; the
`changes === 0` fallback for recovering the old id is not taken. -/
theorem C9_insert_or_replace (db : Db) (v : VerbArgs) (r : VerbRow)
    (hwf : dbWf db = true) (hr : r ∈ db.verbs) (hinf : r.infinitive = v.infinitive) :
    (insertVerb db v).2 = db.seq + 1 ∧
    (insertVerb db v).2 ≠ r.id ∧
    (∀ c ∈ (insertVerb db v).1.verb_conjugations, c.verb_id ≠ r.id) ∧
    r ∉ (insertVerb db v).1.verbs ∧
    (∀ c, c ∈ (insertVerb db v).1.verb_conjugations ↔
      (c ∈ db.verb_conjugations ∧
        ∀ r' ∈ db.verbs, r'.infinitive = v.infinitive → c.verb_id ≠ r'.id)) := by
  have hid : r.id ≤ db.seq := by
    have := List.all_eq_true.mp hwf r hr
    simpa using this
  have h10 : ¬((1 : Nat) = 0) := by decide
  have hsnd : (insertVerb db v).2 = db.seq + 1 := by
    simp only [insertVerb, if_neg h10]
  have hverbs : (insertVerb db v).1.verbs =
      (db.verbs.filter fun x => x.infinitive ≠ v.infinitive) ++
        [⟨db.seq + 1, v.infinitive, v.separablePrefix,
          if v.isIrregular then 1 else 0, v.usagePopularity⟩] := by
    simp only [insertVerb, if_neg h10]
  have hconj : (insertVerb db v).1.verb_conjugations =
      db.verb_conjugations.filter fun c =>
        (db.verbs.filter fun x => x.infinitive = v.infinitive).all
          fun x => x.id ≠ c.verb_id := by
    simp only [insertVerb, if_neg h10]
  refine ⟨hsnd, by rw [hsnd]; omega, ?_, ?_, ?_⟩
  · intro c hc
    rw [hconj, List.mem_filter] at hc
    have := List.all_eq_true.mp hc.2 r
      (List.mem_filter.mpr ⟨hr, by simp [hinf]⟩)
    simp only [decide_eq_true_eq] at this
    exact fun he => this he.symm
  · rw [hverbs]
    intro hmem
    rcases List.mem_append.mp hmem with hk | hrow
    · have := (List.mem_filter.mp hk).2
      simp only [decide_eq_true_eq] at this
      exact this hinf
    · have : r.id = db.seq + 1 := by
        rw [List.mem_singleton.mp hrow]
      omega
  · intro c
    rw [hconj, List.mem_filter]
    constructor
    · rintro ⟨hc, hall⟩
      refine ⟨hc, fun r' hr' hi => ?_⟩
      have := List.all_eq_true.mp hall r'
        (List.mem_filter.mpr ⟨hr', by simp [hi]⟩)
      simp only [decide_eq_true_eq] at this
      exact fun he => this he.symm
    · rintro ⟨hc, hall⟩
      refine ⟨hc, List.all_eq_true.mpr fun r' hr' => ?_⟩
      have hm := List.mem_filter.mp hr'
      simp only [decide_eq_true_eq] at hm ⊢
      exact fun he => hall r' hm.1 hm.2 he.symm

def c9Db : Db :=
  ⟨[⟨3, "gehen", some "", 1, 0⟩],
   [⟨3, "praesens", "gehe", "gehst", "geht", "gehen", "geht", "gehen", none⟩],
   3⟩

def c9Args : VerbArgs := ⟨"gehen", some "", true, 5⟩

def c9Row : VerbRow := ⟨3, "gehen", some "", 1, 0⟩

/-- Witness for C9 at a concrete database. -/
theorem C9_insert_or_replace_witness :
    (insertVerb c9Db c9Args).2 = 4 ∧
      (insertVerb c9Db c9Args).1.verb_conjugations = [] ∧
      c9Row ∉ (insertVerb c9Db c9Args).1.verbs :=
  ⟨by decide, by decide,
    (C9_insert_or_replace c9Db c9Args c9Row (by decide) (by decide) rfl).2.2.2.1⟩

/-! ## Loop decomposition lemmas for the processing phase -/

theorem setCursor_self {s : ScraperState} {x : Int}
    (h : s.processedVerbIndex = x) : { s with processedVerbIndex := x } = s := by
  cases s
  simp_all

theorem handledIdx_append (a b : List Ev) :
    handledIdx (a ++ b) = handledIdx a ++ handledIdx b := by
  simp [handledIdx, List.filterMap_append]

theorem handledIdx_writes (ws : List DbWrite) :
    handledIdx (ws.map Ev.write) = [] := by
  induction ws with
  | nil => rfl
  | cons w ws ih => simpa [handledIdx] using ih

theorem handledIdx_titleEvents (env : Nat → FetchResult) (s : ScraperState)
    (i : Nat) : handledIdx (titleEvents env s i) = [i] := by
  unfold titleEvents
  split
  · rfl
  · have h1 : handledIdx ((titleWrites env s.verbList i).map Ev.write ++
        [Ev.save (advanceSt s i)]) = [] := by
      rw [handledIdx_append, handledIdx_writes]
      rfl
    show handledIdx (Ev.handle i ::
      ((titleWrites env s.verbList i).map Ev.write ++ [Ev.save (advanceSt s i)])) = [i]
    simp only [handledIdx, List.filterMap_cons] at h1 ⊢
    rw [h1]

/-- The processing loop over indices `i₀, …, i₀ + len - 1`, none of which
hits the rate limit: the per-title event blocks in order, then the
completed-phase checkpoint.  The state seen by iteration `j` has cursor
`j - 1`. -/
theorem processIdx_no_stop (env : Nat → FetchResult) (s : ScraperState)
    (i₀ len : Nat)
    (hcur : s.processedVerbIndex = (i₀ : Int) - 1)
    (hns : ∀ j ∈ List.range' i₀ len, titleStops env s.verbList j = false) :
    processIdx env s (List.range' i₀ len) =
      ((List.range' i₀ len).map fun (j : Nat) =>
        titleEvents env { s with processedVerbIndex := (j : Int) - 1 } j).flatten ++
        [Ev.save { s with
          phase := Phase.completed,
          processedVerbIndex := ((i₀ + len : Nat) : Int) - 1 }] := by
  induction len generalizing s i₀ with
  | zero =>
    show processIdx env s [] = [] ++ [Ev.save _]
    simp only [processIdx, List.nil_append]
    have : ((i₀ + 0 : Nat) : Int) - 1 = s.processedVerbIndex := by
      rw [hcur]; push_cast; ring
    rw [show ({ s with
          phase := Phase.completed,
          processedVerbIndex := ((i₀ + 0 : Nat) : Int) - 1 } : ScraperState) =
        { s with phase := Phase.completed } from by cases s; simp_all]
  | succ len ih =>
    rw [List.range'_succ]
    have hstop : titleStops env s.verbList i₀ = false :=
      hns i₀ (by rw [List.range'_succ]; exact List.mem_cons_self _ _)
    have hadv : (advanceSt s i₀).processedVerbIndex = ((i₀ + 1 : Nat) : Int) - 1 := by
      simp [advanceSt]
    have ihx := ih (advanceSt s i₀) (i₀ + 1) hadv
      (fun j hj => hns j (by rw [List.range'_succ]; exact List.mem_cons_of_mem _ hj))
    rw [show i₀ + 1 + len = i₀ + (len + 1) from by omega] at ihx
    show titleEvents env s i₀ ++
        (if titleStops env s.verbList i₀ then []
         else processIdx env (advanceSt s i₀) (List.range' (i₀ + 1) len)) = _
    rw [hstop, if_neg (by simp), ihx, List.map_cons, List.flatten_cons,
      List.append_assoc, setCursor_self hcur]
    rfl

theorem runScrape_processing (inc : Bool) (pages : Nat → EnumStep) (fuel : Nat)
    (incList : List String) (env : Nat → FetchResult) (s₀ : ScraperState)
    (hph : s₀.phase = .fetchingConjugations) :
    runScrape inc pages fuel incList env s₀ = processEvents env s₀ := by
  simp [runScrape, hph]

theorem handledIdx_blocks (env : Nat → FetchResult) (f : Nat → ScraperState) :
    ∀ r : List Nat,
      handledIdx ((r.map fun j => titleEvents env (f j) j).flatten) = r := by
  intro r
  induction r with
  | nil => rfl
  | cons j r ih =>
    rw [List.map_cons, List.flatten_cons, handledIdx_append, ih,
      handledIdx_titleEvents]
    rfl

/-- C3.  A run resumed from a checkpointed state in the processing phase
with cursor `k` handles exactly the titles at indices `k+1, …, n-1`, in
order — never the title at index `k` — and after each handled title the
cursor is advanced to that title's index and checkpointed before the next
title is handled: the run is exactly the concatenation of the per-title
blocks `titleEvents` (each ending in `Ev.save` of the advanced state) in
index order, followed by the completed-phase checkpoint. -/
theorem C3_resume_from_cursor (inc : Bool) (pages : Nat → EnumStep) (fuel : Nat)
    (incList : List String) (env : Nat → FetchResult) (s₀ : ScraperState) (k : Nat)
    (hph : s₀.phase = .fetchingConjugations)
    (hcur : s₀.processedVerbIndex = (k : Int))
    (hk : k < s₀.verbList.length)
    (hns : ∀ j, k + 1 ≤ j → j < s₀.verbList.length →
      titleStops env s₀.verbList j = false) :
    runScrape inc pages fuel incList env s₀ =
      ((List.range' (k + 1) (s₀.verbList.length - (k + 1))).map fun (j : Nat) =>
        titleEvents env { s₀ with processedVerbIndex := (j : Int) - 1 } j).flatten ++
        [Ev.save { s₀ with
          phase := Phase.completed,
          processedVerbIndex := (s₀.verbList.length : Int) - 1 }] ∧
    handledIdx (runScrape inc pages fuel incList env s₀) =
      List.range' (k + 1) (s₀.verbList.length - (k + 1)) ∧
    k ∉ handledIdx (runScrape inc pages fuel incList env s₀) := by
  have hsi : startIndex s₀ = k + 1 := by
    unfold startIndex; rw [hcur]; omega
  have hlen : (k + 1) + (s₀.verbList.length - (k + 1)) = s₀.verbList.length := by
    omega
  have hmain : runScrape inc pages fuel incList env s₀ =
      ((List.range' (k + 1) (s₀.verbList.length - (k + 1))).map fun (j : Nat) =>
        titleEvents env { s₀ with processedVerbIndex := (j : Int) - 1 } j).flatten ++
        [Ev.save { s₀ with
          phase := Phase.completed,
          processedVerbIndex := (s₀.verbList.length : Int) - 1 }] := by
    rw [runScrape_processing inc pages fuel incList env s₀ hph, processEvents, hsi]
    have h3 := processIdx_no_stop env s₀ (k + 1) (s₀.verbList.length - (k + 1))
      (by rw [hcur]; push_cast; ring)
      (fun j hj => by
        have := List.mem_range'_1.mp hj
        exact hns j this.1 (by omega))
    rw [h3, hlen]
  refine ⟨hmain, ?_, ?_⟩
  · rw [hmain, handledIdx_append,
      handledIdx_blocks env (fun j => { s₀ with processedVerbIndex := (j : Int) - 1 })]
    simp [handledIdx]
  · rw [hmain, handledIdx_append,
      handledIdx_blocks env (fun j => { s₀ with processedVerbIndex := (j : Int) - 1 })]
    intro hmem
    rw [List.mem_append] at hmem
    rcases hmem with hm | hm
    · have := List.mem_range'_1.mp hm
      omega
    · simp [handledIdx] at hm

def c3Env : Nat → FetchResult := fun _ => .noPage

def c3Pages : Nat → EnumStep := fun _ => .page [] none

def c3St : ScraperState :=
  ⟨.fetchingConjugations, none, ["Flexion:gehen", "Flexion:sehen"], 0⟩

/-- Witness for C3 at a concrete resumed state with cursor 0 over two
titles. -/
theorem C3_resume_from_cursor_witness :
    runScrape false c3Pages 1 [] c3Env c3St =
      ((List.range' 1 (c3St.verbList.length - 1)).map fun (j : Nat) =>
        titleEvents c3Env { c3St with processedVerbIndex := (j : Int) - 1 } j).flatten ++
        [Ev.save { c3St with
          phase := Phase.completed,
          processedVerbIndex := (c3St.verbList.length : Int) - 1 }] ∧
    handledIdx (runScrape false c3Pages 1 [] c3Env c3St) = [1] ∧
    0 ∉ handledIdx (runScrape false c3Pages 1 [] c3Env c3St) := by
  have h := C3_resume_from_cursor false c3Pages 1 [] c3Env c3St 0 rfl rfl
    (by decide)
    (fun j h1 h2 => by
      have hj : j = 1 := by
        simp [c3St] at h2
        omega
      subst hj
      decide)
  exact ⟨h.1, h.2.1.trans rfl, h.2.2⟩

/-! ## C2: the fatal rate-limit branch -/

theorem range'_split (s m n : Nat) (h : m < n) :
    List.range' s n = List.range' s m ++ (s + m) :: List.range' (s + m + 1) (n - m - 1) := by
  have e1 : (n - m) + m = n := by omega
  have e2 : n - m = (n - m - 1) + 1 := by omega
  conv_lhs => rw [← e1]
  rw [← List.range'_append s m (n - m) 1, one_mul]
  congr 1
  conv_lhs => rw [e2]
  rw [List.range'_succ]

/-- The loop runs the non-stopping indices `i₀, …, i₀ + gap - 1`, then the
index `i₀ + gap` hits the rate limit: checkpoint at cursor `i₀ + gap - 1`,
exit 1, and nothing further — the remaining indices are abandoned. -/
theorem processIdx_stop_at (env : Nat → FetchResult) (s : ScraperState)
    (i₀ gap : Nat) (rest : List Nat)
    (hcur : s.processedVerbIndex = (i₀ : Int) - 1)
    (hns : ∀ j ∈ List.range' i₀ gap, titleStops env s.verbList j = false)
    (hstop : titleStops env s.verbList (i₀ + gap) = true) :
    processIdx env s (List.range' i₀ gap ++ ((i₀ + gap) :: rest)) =
      ((List.range' i₀ gap).map fun (j : Nat) =>
        titleEvents env { s with processedVerbIndex := (j : Int) - 1 } j).flatten ++
        [Ev.handle (i₀ + gap),
         Ev.save { s with processedVerbIndex := ((i₀ + gap : Nat) : Int) - 1 },
         Ev.exitProc 1] := by
  induction gap generalizing s i₀ with
  | zero =>
    show processIdx env s (i₀ :: rest) = _
    show titleEvents env s i₀ ++ _ = _
    rw [show i₀ + 0 = i₀ from rfl] at hstop
    rw [hstop, if_pos rfl]
    simp [titleEvents, hstop, rlSt]
  | succ gap ih =>
    have harr : i₀ + 1 + gap = i₀ + (gap + 1) := by omega
    have hstop0 : titleStops env s.verbList i₀ = false :=
      hns i₀ (by rw [List.range'_succ]; exact List.mem_cons_self _ _)
    have hadv : (advanceSt s i₀).processedVerbIndex = ((i₀ + 1 : Nat) : Int) - 1 := by
      simp [advanceSt]
    have ihx := ih (advanceSt s i₀) (i₀ + 1) hadv
      (fun j hj => hns j (by rw [List.range'_succ]; exact List.mem_cons_of_mem _ hj))
      (by rw [harr]; exact hstop)
    rw [harr] at ihx
    rw [List.range'_succ, List.cons_append]
    show titleEvents env s i₀ ++
        (if titleStops env s.verbList i₀ then []
         else processIdx env (advanceSt s i₀)
           (List.range' (i₀ + 1) gap ++ ((i₀ + (gap + 1)) :: rest))) = _
    rw [hstop0, if_neg (by simp)]
    rw [ihx, List.map_cons, List.flatten_cons, List.append_assoc,
      setCursor_self hcur]
    rfl

/-- C2.  If, in the processing phase resumed at index `k`, the titles
before index `i` do not hit the rate limit and the fetch of title `i`
raises `RateLimited`, the run emits the preceding per-title blocks, then
reaches title `i`, persists the state with cursor `i - 1`, exits with
code 1 and does nothing further; resuming from that persisted state starts
with title `i`. -/
theorem C2_rate_limit_checkpoint (inc : Bool) (pages : Nat → EnumStep)
    (fuel : Nat) (incList : List String) (env : Nat → FetchResult)
    (s₀ : ScraperState) (k i : Nat)
    (hph : s₀.phase = .fetchingConjugations)
    (hcur : s₀.processedVerbIndex = (k : Int) - 1)
    (hki : k ≤ i) (hin : i < s₀.verbList.length)
    (hns : ∀ j, k ≤ j → j < i → titleStops env s₀.verbList j = false)
    (hstop : titleStops env s₀.verbList i = true) :
    runScrape inc pages fuel incList env s₀ =
      ((List.range' k (i - k)).map fun (j : Nat) =>
        titleEvents env { s₀ with processedVerbIndex := (j : Int) - 1 } j).flatten ++
        [Ev.handle i, Ev.save { s₀ with processedVerbIndex := (i : Int) - 1 },
         Ev.exitProc 1] ∧
    startIndex { s₀ with processedVerbIndex := (i : Int) - 1 } = i := by
  constructor
  · rw [runScrape_processing inc pages fuel incList env s₀ hph, processEvents]
    have hsi : startIndex s₀ = k := by
      unfold startIndex; rw [hcur]; omega
    rw [hsi]
    rw [range'_split k (i - k) (s₀.verbList.length - k) (by omega)]
    have hik : k + (i - k) = i := by omega
    rw [hik]
    have h := processIdx_stop_at env s₀ k (i - k)
      (List.range' (i + 1) (s₀.verbList.length - k - (i - k) - 1)) hcur
      (fun j hj => by
        have := List.mem_range'_1.mp hj
        exact hns j this.1 (by omega))
      (by rw [hik]; exact hstop)
    rw [hik] at h
    rw [h]
  · unfold startIndex
    simp

def c2Env : Nat → FetchResult := fun j =>
  if j = 1 then .err .rateLimit else .noPage

def c2St : ScraperState :=
  ⟨.fetchingConjugations, none, ["Flexion:gehen", "Flexion:sehen", "Flexion:lesen"], -1⟩

/-- Witness for C2: the rate limit hits at index 1 of a fresh three-title
processing phase. -/
theorem C2_rate_limit_checkpoint_witness :
    runScrape false c3Pages 1 [] c2Env c2St =
      ((List.range' 0 1).map fun (j : Nat) =>
        titleEvents c2Env { c2St with processedVerbIndex := (j : Int) - 1 } j).flatten ++
        [Ev.handle 1, Ev.save { c2St with processedVerbIndex := (1 : Int) - 1 },
         Ev.exitProc 1] ∧
    startIndex { c2St with processedVerbIndex := (1 : Int) - 1 } = 1 := by
  have h := C2_rate_limit_checkpoint false c3Pages 1 [] c2Env c2St 0 1 rfl rfl
    (by omega) (by decide)
    (fun j h1 h2 => by
      have hj : j = 0 := by omega
      subst hj; decide)
    (by decide)
  exact h

/-! ## C5: non-rate-limit failures are skipped, not fatal -/

/-- C5 (amended).  A failure thrown while processing a title whose message
does not start with `RATE_LIMIT` — a transport error or any unexpected
error alike — is logged and skipped: no write is emitted for the title, the
cursor is advanced to it and checkpointed, and the loop continues with the
next title; the run is not aborted. -/
theorem C5_non_rl_error_skipped (env : Nat → FetchResult) (s : ScraperState)
    (i : Nat) (rest : List Nat) (u : Bool)
    (hfetch : titleFetchable s.verbList i = true)
    (herr : env i = .err (.other u)) :
    processIdx env s (i :: rest) =
      Ev.handle i :: Ev.save (advanceSt s i) ::
        processIdx env (advanceSt s i) rest := by
  have hstop : titleStops env s.verbList i = false := by
    simp [titleStops, herr]
  have hw : titleWrites env s.verbList i = [] := by
    simp [titleWrites, herr, hfetch]
  show titleEvents env s i ++ _ = _
  rw [hstop, if_neg (by simp)]
  simp [titleEvents, hstop, hw]

def c5wEnv : Nat → FetchResult := fun _ => .err (.other false)

def c5wSt : ScraperState := ⟨.fetchingConjugations, none, ["Flexion:lesen"], -1⟩

/-- Witness for C5's amended statement at a concrete transport-style
failure. -/
theorem C5_non_rl_error_skipped_witness :
    processIdx c5wEnv c5wSt [0] =
      Ev.handle 0 :: Ev.save (advanceSt c5wSt 0) ::
        processIdx c5wEnv (advanceSt c5wSt 0) [] :=
  C5_non_rl_error_skipped c5wEnv c5wSt 0 [] false (by decide) rfl

def c5Env : Nat → FetchResult := fun i =>
  if i = 0 then .err (.other true) else .noPage

def c5St : ScraperState :=
  ⟨.fetchingConjugations, none, ["Flexion:gehen", "Flexion:sehen"], -1⟩

/-- Counterexample to C5 as stated: in this run the fetch of title 0 throws
an unexpected (non-rate-limit, non-transport) error, yet the run is NOT
aborted: no `Ev.exitProc` occurs, the cursor is checkpointed past the
failing title (0, not the last known-good -1), the next title is still
processed and the run checkpoints `completed`. -/
theorem C5_counterexample :
    runScrape false c3Pages 1 [] c5Env c5St =
      [Ev.handle 0, Ev.save { c5St with processedVerbIndex := 0 },
       Ev.handle 1, Ev.save { c5St with processedVerbIndex := 1 },
       Ev.save { c5St with
        phase := Phase.completed,
        processedVerbIndex := 1 }] ∧
    Ev.exitProc 1 ∉ runScrape false c3Pages 1 [] c5Env c5St := by
  constructor
  · rfl
  · intro h
    rw [show runScrape false c3Pages 1 [] c5Env c5St =
      [Ev.handle 0, Ev.save { c5St with processedVerbIndex := 0 },
       Ev.handle 1, Ev.save { c5St with processedVerbIndex := 1 },
       Ev.save { c5St with
        phase := Phase.completed,
        processedVerbIndex := 1 }] from rfl] at h
    simp at h

/-! ## C7: the checkpoint invariant -/

theorem savesOf_append (a b : List Ev) :
    savesOf (a ++ b) = savesOf a ++ savesOf b := by
  simp [savesOf, List.filterMap_append]

theorem savesOf_writes (ws : List DbWrite) :
    savesOf (ws.map Ev.write) = [] := by
  induction ws with
  | nil => rfl
  | cons w ws ih => simpa [savesOf] using ih

theorem savesOf_titleEvents (env : Nat → FetchResult) (s : ScraperState) (i : Nat) :
    savesOf (titleEvents env s i) =
      if titleStops env s.verbList i then [rlSt s i] else [advanceSt s i] := by
  unfold titleEvents
  split
  · rfl
  · show savesOf (Ev.handle i ::
      ((titleWrites env s.verbList i).map Ev.write ++ [Ev.save (advanceSt s i)])) = _
    have h1 := savesOf_writes (titleWrites env s.verbList i)
    simp only [savesOf, List.filterMap_cons, List.filterMap_append] at h1 ⊢
    rw [h1]
    rfl

/-- Every checkpoint of the processing loop keeps the title list and the
continuation token, moves the phase only to `completed`, and keeps the
cursor below the list length. -/
theorem processIdx_saves (env : Nat → FetchResult) :
    ∀ (idx : List Nat) (s : ScraperState),
      invCursor s = true → (∀ i ∈ idx, i < s.verbList.length) →
      ∀ x ∈ savesOf (processIdx env s idx),
        x.verbList = s.verbList ∧
        x.verbListContinueToken = s.verbListContinueToken ∧
        (x.phase = s.phase ∨ x.phase = Phase.completed) ∧
        invCursor x = true := by
  intro idx
  induction idx with
  | nil =>
    intro s hc _ x hx
    simp only [processIdx, savesOf, List.filterMap_cons, List.filterMap_nil] at hx
    simp only [List.mem_singleton] at hx
    subst hx
    refine ⟨rfl, rfl, Or.inr rfl, ?_⟩
    simpa [invCursor] using hc
  | cons i rest ih =>
    intro s hc hlt x hx
    rw [show processIdx env s (i :: rest) = titleEvents env s i ++
        (if titleStops env s.verbList i then []
         else processIdx env (advanceSt s i) rest) from rfl,
      savesOf_append] at hx
    rcases List.mem_append.mp hx with h1 | h2
    · rw [savesOf_titleEvents] at h1
      have hi : i < s.verbList.length := hlt i (List.mem_cons_self _ _)
      split at h1 <;> simp only [List.mem_singleton] at h1 <;> subst h1
      · exact ⟨rfl, rfl, Or.inl rfl, by simp [invCursor, rlSt]; omega⟩
      · exact ⟨rfl, rfl, Or.inl rfl, by simp [invCursor, advanceSt]; omega⟩
    · split at h2
      · simp [savesOf] at h2
      · have hi : i < s.verbList.length := hlt i (List.mem_cons_self _ _)
        have := ih (advanceSt s i)
          (by simp [invCursor, advanceSt]; omega)
          (fun j hj => hlt j (List.mem_cons_of_mem _ hj)) x h2
        exact this

theorem chain'_prefix_const (v : List String) :
    ∀ l : List ScraperState, (∀ x ∈ l, x.verbList = v) →
      List.Chain' (fun a b => a.verbList <+: b.verbList) l := by
  intro l
  induction l with
  | nil => intro _; simp
  | cons a t ih =>
    intro h
    cases t with
    | nil => simp
    | cons b t' =>
      rw [List.chain'_cons]
      refine ⟨?_, ih (fun x hx => h x (List.mem_cons_of_mem _ hx))⟩
      rw [h a (List.mem_cons_self _ _),
        h b (List.mem_cons_of_mem _ (List.mem_cons_self _ _))]

/-- During enumeration every checkpoint keeps the phase and cursor and only
appends to the title list; a normally finished enumeration ends on its last
checkpoint, whose continuation token is `null`. -/
theorem runEnum_saves (pages : Nat → EnumStep) :
    ∀ (fuel : Nat) (s : ScraperState) (k : Nat),
      (∀ x ∈ savesOf (runEnum pages fuel s k).2.1,
        x.phase = s.phase ∧ x.processedVerbIndex = s.processedVerbIndex ∧
        s.verbList <+: x.verbList) ∧
      List.Chain' (fun a b => a.verbList <+: b.verbList)
        (s :: savesOf (runEnum pages fuel s k).2.1) ∧
      ((runEnum pages fuel s k).2.2 = false →
        (savesOf (runEnum pages fuel s k).2.1).getLast? =
          some (runEnum pages fuel s k).1 ∧
        (runEnum pages fuel s k).1.verbListContinueToken = none) := by
  intro fuel
  induction fuel with
  | zero =>
    intro s k
    refine ⟨?_, ?_, ?_⟩ <;> simp [runEnum, savesOf]
  | succ fuel ih =>
    intro s k
    cases hp : pages k with
    | fail e =>
      refine ⟨?_, ?_, ?_⟩
      · intro x hx
        simp only [runEnum, hp, savesOf, List.filterMap_cons, List.filterMap_nil] at hx
        simp only [List.mem_singleton] at hx
        subst hx
        exact ⟨rfl, rfl, List.prefix_rfl⟩
      · simp only [runEnum, hp, savesOf, List.filterMap_cons, List.filterMap_nil]
        exact List.chain'_pair.mpr List.prefix_rfl
      · intro hab
        simp [runEnum, hp] at hab
    | page ms tok =>
      have hpre : s.verbList <+: (enumAppend s ms tok).verbList :=
        List.prefix_append _ _
      have hph : (enumAppend s ms tok).phase = s.phase := rfl
      have hcu : (enumAppend s ms tok).processedVerbIndex = s.processedVerbIndex := rfl
      cases ht : (normToken tok).isSome with
      | true =>
        have hred : runEnum pages (fuel + 1) s k =
            ((runEnum pages fuel (enumAppend s ms tok) (k + 1)).1,
             Ev.save (enumAppend s ms tok) ::
               (runEnum pages fuel (enumAppend s ms tok) (k + 1)).2.1,
             (runEnum pages fuel (enumAppend s ms tok) (k + 1)).2.2) := by
          simp [runEnum, hp, ht]
        obtain ⟨ih1, ih2, ih3⟩ := ih (enumAppend s ms tok) (k + 1)
        rw [hred]
        refine ⟨?_, ?_, ?_⟩
        · intro x hx
          simp only [savesOf, List.filterMap_cons] at hx
          rcases List.mem_cons.mp hx with rfl | hx'
          · exact ⟨rfl, rfl, hpre⟩
          · obtain ⟨ha, hb, hcp⟩ := ih1 x hx'
            exact ⟨ha.trans hph, hb.trans hcu, hpre.trans hcp⟩
        · show List.Chain' _ (s :: savesOf (Ev.save (enumAppend s ms tok) :: _))
          simp only [savesOf, List.filterMap_cons]
          rw [List.chain'_cons]
          exact ⟨hpre, ih2⟩
        · intro hab
          obtain ⟨hlast, htok⟩ := ih3 hab
          refine ⟨?_, htok⟩
          show (savesOf (Ev.save (enumAppend s ms tok) :: _)).getLast? = _
          simp only [savesOf, List.filterMap_cons]
          cases hrec : savesOf (runEnum pages fuel (enumAppend s ms tok) (k + 1)).2.1 with
          | nil => rw [hrec] at hlast; simp at hlast
          | cons y ys =>
            rw [hrec] at hlast
            rw [show (List.filterMap (fun e => match e with
              | Ev.save s => some s
              | _ => none) (runEnum pages fuel (enumAppend s ms tok) (k + 1)).2.1 :
                List ScraperState) = y :: ys from hrec]
            rw [List.getLast?_cons_cons]
            exact hlast
      | false =>
        have hred : runEnum pages (fuel + 1) s k =
            (enumAppend s ms tok, [Ev.save (enumAppend s ms tok)], false) := by
          simp [runEnum, hp, ht]
        rw [hred]
        refine ⟨?_, ?_, ?_⟩
        · intro x hx
          simp only [savesOf, List.filterMap_cons, List.filterMap_nil,
            List.mem_singleton] at hx
          subst hx
          exact ⟨rfl, rfl, hpre⟩
        · simp only [savesOf, List.filterMap_cons, List.filterMap_nil]
          exact List.chain'_pair.mpr hpre
        · intro _
          refine ⟨rfl, ?_⟩
          show normToken tok = none
          cases hnt : normToken tok with
          | none => rfl
          | some t => rw [hnt] at ht; simp at ht

theorem processEvents_saves (env : Nat → FetchResult) (s₂ : ScraperState)
    (hc : invCursor s₂ = true) :
    ∀ x ∈ savesOf (processEvents env s₂),
      x.verbList = s₂.verbList ∧
      x.verbListContinueToken = s₂.verbListContinueToken ∧
      (x.phase = s₂.phase ∨ x.phase = Phase.completed) ∧
      invCursor x = true := by
  intro x hx
  exact processIdx_saves env _ s₂ hc
    (fun i hi => by
      have := List.mem_range'_1.mp hi
      omega) x hx

/-- C7 (amended).  Every checkpointed state of a run satisfies
`cursor < titleList.length`; the title list is append-only along the
checkpoint sequence (and constant across all checkpoints outside the
enumeration phase); and the continuation token is non-null only while
enumerating — the last conjunct provided that an incomplete-mode run is not
resumed from a mid-enumeration checkpoint (for incomplete mode the initial
state must carry no token and an empty title list, as a fresh state does). -/
theorem C7_checkpoint_invariant (inc : Bool) (pages : Nat → EnumStep)
    (fuel : Nat) (incList : List String) (env : Nat → FetchResult)
    (s₀ : ScraperState)
    (hc : invCursor s₀ = true) (ht : invToken s₀ = true)
    (hinc : inc = true → s₀.verbListContinueToken = none ∧ s₀.verbList = []) :
    (∀ x ∈ savesOf (runScrape inc pages fuel incList env s₀),
      invCursor x = true ∧ invToken x = true) ∧
    List.Chain' (fun a b => a.verbList <+: b.verbList)
      (s₀ :: savesOf (runScrape inc pages fuel incList env s₀)) ∧
    (∀ x ∈ savesOf (runScrape inc pages fuel incList env s₀),
      ∀ y ∈ savesOf (runScrape inc pages fuel incList env s₀),
        x.phase ≠ Phase.fetchingVerbs → y.phase ≠ Phase.fetchingVerbs →
        x.verbList = y.verbList) := by
  cases hph : s₀.phase with
  | completed =>
    have hrun : runScrape inc pages fuel incList env s₀ = [] := by
      simp [runScrape, hph]
    rw [hrun]
    exact ⟨by simp [savesOf], by simp [savesOf], by simp [savesOf]⟩
  | fetchingConjugations =>
    have hrun := runScrape_processing inc pages fuel incList env s₀ hph
    rw [hrun]
    have htok : s₀.verbListContinueToken = none := by
      simp only [invToken, hph, decide_eq_true_eq] at ht
      rcases ht with h | h
      · exact h
      · cases h
    have hsv := processEvents_saves env s₀ hc
    refine ⟨?_, ?_, ?_⟩
    · intro x hx
      obtain ⟨hv, htk, hp2, hcx⟩ := hsv x hx
      exact ⟨hcx, by simp [invToken, htk, htok]⟩
    · exact chain'_prefix_const s₀.verbList _
        (fun y hy => by
          rcases List.mem_cons.mp hy with rfl | hy'
          · rfl
          · exact (hsv y hy').1)
    · intro x hx y hy _ _
      rw [(hsv x hx).1, (hsv y hy).1]
  | fetchingVerbs =>
    cases hi : inc with
    | true =>
      obtain ⟨htk0, hvl0⟩ := hinc hi
      have hrun : runScrape true pages fuel incList env s₀ =
          Ev.save { s₀ with
            verbList := incList.map fun v => "Flexion:" ++ v,
            phase := Phase.fetchingConjugations } ::
          processEvents env { s₀ with
            verbList := incList.map fun v => "Flexion:" ++ v,
            phase := Phase.fetchingConjugations } := by
        simp [runScrape, hph, hi]
      rw [hrun]
      generalize hgen : ({ s₀ with
        verbList := incList.map fun v => "Flexion:" ++ v,
        phase := Phase.fetchingConjugations } : ScraperState) = s₂ at *
      have hf1 : s₂.phase = Phase.fetchingConjugations := by rw [← hgen]
      have hf2 : s₂.verbListContinueToken = s₀.verbListContinueToken := by
        rw [← hgen]
      have hf3 : s₂.processedVerbIndex = s₀.processedVerbIndex := by rw [← hgen]
      have hc₂ : invCursor s₂ = true := by
        simp only [invCursor, decide_eq_true_eq] at hc ⊢
        rw [hvl0] at hc
        simp only [List.length_nil, Nat.cast_zero] at hc
        rw [hf3]
        omega
      have hsv := processEvents_saves env s₂ hc₂
      have hmem : ∀ x ∈ savesOf (Ev.save s₂ :: processEvents env s₂),
          x = s₂ ∨ x ∈ savesOf (processEvents env s₂) := by
        intro x hx
        simp only [savesOf, List.filterMap_cons] at hx
        exact List.mem_cons.mp hx
      refine ⟨?_, ?_, ?_⟩
      · intro x hx
        rcases hmem x hx with rfl | hx'
        · exact ⟨hc₂, by simp [invToken, hf2, htk0]⟩
        · obtain ⟨hv, htk, _, hcx⟩ := hsv x hx'
          exact ⟨hcx, by simp [invToken, htk, hf2, htk0]⟩
      · show List.Chain' _ (s₀ :: savesOf (Ev.save s₂ :: processEvents env s₂))
        simp only [savesOf, List.filterMap_cons]
        rw [List.chain'_cons]
        constructor
        · rw [hvl0]; exact List.nil_prefix
        · exact chain'_prefix_const s₂.verbList _
            (fun y hy => by
              rcases List.mem_cons.mp hy with rfl | hy'
              · rfl
              · exact (hsv y hy').1)
      · intro x hx y hy _ _
        have hex : ∀ z, z = s₂ ∨ z ∈ savesOf (processEvents env s₂) →
            z.verbList = s₂.verbList := by
          rintro z (rfl | hz)
          · rfl
          · exact (hsv z hz).1
        rw [hex x (hmem x hx), hex y (hmem y hy)]
    | false =>
      obtain ⟨e1, e2, e3⟩ := runEnum_saves pages fuel s₀ 0
      cases hab : (runEnum pages fuel s₀ 0).2.2 with
      | true =>
        have hrun : runScrape false pages fuel incList env s₀ =
            (runEnum pages fuel s₀ 0).2.1 := by
          simp [runScrape, hph, hi, hab]
        rw [hrun]
        refine ⟨?_, e2, ?_⟩
        · intro x hx
          obtain ⟨hxp, hxc, hxv⟩ := e1 x hx
          constructor
          · simp only [invCursor, decide_eq_true_eq] at hc ⊢
            have hle := hxv.length_le
            rw [hxc]
            omega
          · simp [invToken, hxp, hph]
        · intro x hx y hy hxf _
          obtain ⟨hxp, _, _⟩ := e1 x hx
          exact absurd (hxp.trans hph) hxf
      | false =>
        obtain ⟨hlast, htokf⟩ := e3 hab
        have hrun : runScrape false pages fuel incList env s₀ =
            ((runEnum pages fuel s₀ 0).2.1 ++
              [Ev.save { (runEnum pages fuel s₀ 0).1 with
                phase := Phase.fetchingConjugations }]) ++
            processEvents env { (runEnum pages fuel s₀ 0).1 with
              phase := Phase.fetchingConjugations } := by
          simp [runScrape, hph, hi, hab]
        have hsfmem : (runEnum pages fuel s₀ 0).1 ∈
            savesOf (runEnum pages fuel s₀ 0).2.1 := by
          obtain ⟨hne, heq⟩ :=
            List.mem_getLast?_eq_getLast (Option.mem_def.mpr hlast)
          rw [heq]
          exact List.getLast_mem hne
        obtain ⟨hsfp, hsfc, hsfv⟩ := e1 _ hsfmem
        have hc₂ : invCursor ({ (runEnum pages fuel s₀ 0).1 with
            phase := Phase.fetchingConjugations } : ScraperState) = true := by
          simp only [invCursor, decide_eq_true_eq] at hc ⊢
          have hle := hsfv.length_le
          show (runEnum pages fuel s₀ 0).1.processedVerbIndex <
            ((runEnum pages fuel s₀ 0).1.verbList.length : Int)
          rw [hsfc]
          omega
        have hsv := processEvents_saves env _ hc₂
        have hsplit : savesOf (runScrape false pages fuel incList env s₀) =
            savesOf (runEnum pages fuel s₀ 0).2.1 ++
            ({ (runEnum pages fuel s₀ 0).1 with
              phase := Phase.fetchingConjugations } : ScraperState) ::
            savesOf (processEvents env { (runEnum pages fuel s₀ 0).1 with
              phase := Phase.fetchingConjugations }) := by
          rw [hrun, savesOf_append, savesOf_append]
          simp only [savesOf, List.filterMap_cons, List.filterMap_nil]
          rw [List.append_assoc, List.singleton_append]
        have hclassify : ∀ x ∈ savesOf (runScrape false pages fuel incList env s₀),
            x ∈ savesOf (runEnum pages fuel s₀ 0).2.1 ∨
            x = ({ (runEnum pages fuel s₀ 0).1 with
              phase := Phase.fetchingConjugations } : ScraperState) ∨
            x ∈ savesOf (processEvents env { (runEnum pages fuel s₀ 0).1 with
              phase := Phase.fetchingConjugations }) := by
          intro x hx
          rw [hsplit] at hx
          rcases List.mem_append.mp hx with h1 | h2
          · exact Or.inl h1
          · rcases List.mem_cons.mp h2 with h3 | h4
            · exact Or.inr (Or.inl h3)
            · exact Or.inr (Or.inr h4)
        refine ⟨?_, ?_, ?_⟩
        · intro x hx
          rcases hclassify x hx with h1 | h2 | h3
          · obtain ⟨hxp, hxc, hxv⟩ := e1 x h1
            constructor
            · simp only [invCursor, decide_eq_true_eq] at hc ⊢
              have hle := hxv.length_le
              rw [hxc]
              omega
            · simp [invToken, hxp, hph]
          · subst h2
            exact ⟨hc₂, by
              simp only [invToken]
              show decide ((runEnum pages fuel s₀ 0).1.verbListContinueToken =
                none ∨ _) = true
              simp [htokf]⟩
          · obtain ⟨hv, htk, _, hcx⟩ := hsv x h3
            refine ⟨hcx, ?_⟩
            simp only [invToken, decide_eq_true_eq]
            exact Or.inl (htk.trans htokf)
        · rw [hsplit, show (s₀ :: (savesOf (runEnum pages fuel s₀ 0).2.1 ++
            ({ (runEnum pages fuel s₀ 0).1 with
              phase := Phase.fetchingConjugations } : ScraperState) ::
            savesOf (processEvents env { (runEnum pages fuel s₀ 0).1 with
              phase := Phase.fetchingConjugations }))) =
            ((s₀ :: savesOf (runEnum pages fuel s₀ 0).2.1) ++
             (({ (runEnum pages fuel s₀ 0).1 with
              phase := Phase.fetchingConjugations } : ScraperState) ::
            savesOf (processEvents env { (runEnum pages fuel s₀ 0).1 with
              phase := Phase.fetchingConjugations }))) from by
            rw [List.cons_append]]
          rw [List.chain'_append]
          refine ⟨e2, ?_, ?_⟩
          · exact chain'_prefix_const _ _
              (fun y hy => by
                rcases List.mem_cons.mp hy with rfl | hy'
                · rfl
                · exact (hsv y hy').1)
          · intro a ha b hb
            have hga : (s₀ :: savesOf (runEnum pages fuel s₀ 0).2.1).getLast? =
                some (runEnum pages fuel s₀ 0).1 := by
              cases hcase : savesOf (runEnum pages fuel s₀ 0).2.1 with
              | nil => rw [hcase] at hlast; simp at hlast
              | cons y ys =>
                rw [hcase] at hlast
                rw [List.getLast?_cons_cons]
                exact hlast
            rw [hga] at ha
            simp only [Option.mem_def, Option.some.injEq] at ha
            subst ha
            simp only [List.head?_cons, Option.mem_def, Option.some.injEq] at hb
            subst hb
            exact List.prefix_rfl
        · intro x hx y hy hxf hyf
          have hvx : ∀ z ∈ savesOf (runScrape false pages fuel incList env s₀),
              z.phase ≠ Phase.fetchingVerbs →
              z.verbList = (runEnum pages fuel s₀ 0).1.verbList := by
            intro z hz hzf
            rcases hclassify z hz with h1 | h2 | h3
            · exact absurd ((e1 z h1).1.trans hph) hzf
            · rw [h2]
            · exact (hsv z h3).1
          rw [hvx x hx hxf, hvx y hy hyf]


def c7Pages : Nat → EnumStep := fun k =>
  if k = 0 then .page ["Flexion:a"] (some "page|500") else .page [] none

/-- A mid-enumeration checkpoint of a category-mode run: one page merged,
continuation token pending. -/
def c7Mid : ScraperState := ⟨.fetchingVerbs, some "page|500", ["Flexion:a"], -1⟩

/-- The state checkpointed by an incomplete-mode run resumed from
`c7Mid`. -/
def c7Bad : ScraperState :=
  ⟨.fetchingConjugations, some "page|500", ["Flexion:b"], -1⟩

/-- Counterexample to C7 as stated: `c7Mid` is a state the machine
checkpoints during a category-mode run from the fresh state, and resuming
from it in incomplete mode checkpoints `c7Bad`, whose continuation token is
non-null although its phase is no longer enumerating (`invToken c7Bad =
false`), and whose title list does not extend `c7Mid`'s (the list was
replaced, not appended). -/
theorem C7_counterexample :
    c7Mid ∈ savesOf (runScrape false c7Pages 2 [] c3Env defaultState) ∧
    c7Bad ∈ savesOf (runScrape true c7Pages 2 ["b"] c3Env c7Mid) ∧
    invToken c7Bad = false ∧
    ¬ c7Mid.verbList <+: c7Bad.verbList :=
  ⟨by decide, by decide, by decide, by decide⟩

/-- Witness for C7's amended statement: a category-mode run from the fresh
state. -/
theorem C7_checkpoint_invariant_witness :
    (∀ x ∈ savesOf (runScrape false c7Pages 2 [] c3Env defaultState),
      invCursor x = true ∧ invToken x = true) ∧
    List.Chain' (fun a b => a.verbList <+: b.verbList)
      (defaultState :: savesOf (runScrape false c7Pages 2 [] c3Env defaultState)) ∧
    (∀ x ∈ savesOf (runScrape false c7Pages 2 [] c3Env defaultState),
      ∀ y ∈ savesOf (runScrape false c7Pages 2 [] c3Env defaultState),
        x.phase ≠ Phase.fetchingVerbs → y.phase ≠ Phase.fetchingVerbs →
        x.verbList = y.verbList) :=
  C7_checkpoint_invariant false c7Pages 2 [] c3Env defaultState
    (by decide) (by decide) (fun h => by cases h)

/-! ## C1: the parser never throws -/

theorem lazyNoNL_group_no_nl {term s g r : List Char}
    (h : lazyNoNL term s = some (g, r)) : ∀ c ∈ g, c ≠ '\n' := by
  induction s generalizing g r with
  | nil =>
    simp only [lazyNoNL] at h
    split at h <;> simp_all
  | cons c rest ih =>
    simp only [lazyNoNL] at h
    split at h
    · simp only [Option.some.injEq, Prod.mk.injEq] at h
      obtain ⟨rfl, -⟩ := h
      simp
    · split at h
      case isTrue => exact absurd h (by simp)
      case isFalse hcn =>
        cases hrec : lazyNoNL term rest with
        | none => rw [hrec] at h; simp at h
        | some p =>
          rw [hrec] at h
          obtain ⟨g', r'⟩ := p
          simp only [Option.map_some', Option.some.injEq, Prod.mk.injEq] at h
          obtain ⟨rfl, -⟩ := h
          intro x hx
          rcases List.mem_cons.mp hx with rfl | hx'
          · exact hcn
          · exact ih hrec x hx'

theorem lazyNoNL_at_terminator (g : List Char) (hg : ∀ c ∈ g, c ≠ '\n')
    (t : List Char) :
    lazyNoNL "\n</td>".data (g ++ "\n</td>".data ++ t) = some (g, t) := by
  induction g with
  | nil =>
    show lazyNoNL "\n</td>".data ('\n' :: ("</td>".data ++ t)) = _
    rw [lazyNoNL]
    rw [if_pos (by
      rw [List.isPrefixOf_iff_prefix]
      exact ⟨t, by simp⟩)]
    simp
  | cons c g' ih =>
    have hc : c ≠ '\n' := hg c (List.mem_cons_self _ _)
    show lazyNoNL "\n</td>".data (c :: (g' ++ "\n</td>".data ++ t)) = _
    rw [lazyNoNL]
    rw [if_neg (by
      rw [List.isPrefixOf_iff_prefix]
      intro hpre
      obtain ⟨t', ht'⟩ := hpre
      have hhead : '\n' = c := by
        have := congrArg List.head? ht'
        simpa using this
      exact hc hhead.symm)]
    rw [if_neg hc]
    rw [show g' ++ "\n</td>".data ++ t = g' ++ ("\n</td>".data ++ t) from by
      rw [List.append_assoc]]
    rw [show g' ++ ("\n</td>".data ++ t) = g' ++ "\n</td>".data ++ t from by
      rw [List.append_assoc]]
    rw [ih (fun x hx => hg x (List.mem_cons_of_mem _ hx))]
    rfl

/-- At the start of `"<td>" ++ g ++ "\n</td>" ++ t` with `g` newline-free,
the cell regex matches. -/
theorem cellMatchAt_shape (g t : List Char) (hg : ∀ c ∈ g, c ≠ '\n') :
    cellMatchAt ("<td>".data ++ g ++ "\n</td>".data ++ t) = some g := by
  unfold cellMatchAt
  rw [if_pos (by
    rw [List.isPrefixOf_iff_prefix]
    exact ⟨g ++ "\n</td>".data ++ t, by simp⟩)]
  rw [show ("<td>".data ++ g ++ "\n</td>".data ++ t).drop 4 =
      g ++ "\n</td>".data ++ t from by
    rw [show "<td>".data ++ g ++ "\n</td>".data ++ t =
      "<td>".data ++ (g ++ "\n</td>".data ++ t) from by simp [List.append_assoc]]
    rw [show (4 : Nat) = "<td>".data.length from rfl]
    exact List.drop_left _ _]
  rw [lazyNoNL_at_terminator g hg t]

theorem cellSearch_of_match {b : List Char} (hb : (cellMatchAt b).isSome) :
    ∀ a : List Char, (cellSearch (a ++ b)).isSome := by
  intro a
  induction a with
  | nil =>
    cases b with
    | nil => simp [cellMatchAt] at hb
    | cons c rest =>
      show (cellSearch (c :: rest)).isSome
      simp only [cellSearch]
      cases hcm : cellMatchAt (c :: rest) with
      | some g => simp
      | none => rw [hcm] at hb; simp at hb
  | cons x a' ih =>
    show (cellSearch (x :: (a' ++ b))).isSome
    simp only [cellSearch]
    cases hcm : cellMatchAt (x :: (a' ++ b)) with
    | some g => simp
    | none => simpa using ih

theorem rowMatchAt_shape {s m r : List Char} (h : rowMatchAt s = some (m, r)) :
    ∃ pre g₂, m = pre ++ "<td>".data ++ g₂ ++ "\n</td>".data ∧
      ∀ c ∈ g₂, c ≠ '\n' := by
  unfold rowMatchAt at h
  split at h
  case isFalse => exact absurd h (by simp)
  case isTrue hpre =>
    simp only [] at h
    split at h
    case isFalse => exact absurd h (by simp)
    case isTrue hpre2 =>
      split at h
      case h_2 => exact absurd h (by simp)
      case h_1 g₁ r₃ h1 =>
        split at h
        case h_2 => exact absurd h (by simp)
        case h_1 g₂ r₄ h2 =>
          simp only [Option.some.injEq, Prod.mk.injEq] at h
          obtain ⟨rfl, -⟩ := h
          refine ⟨"<tr>\n<td".data ++ (s.drop 8).takeWhile (· ≠ '>') ++
            "><small>".data ++ g₁ ++ "</small>\n</td>\n".data, g₂, ?_,
            lazyNoNL_group_no_nl h2⟩
          simp [List.append_assoc]

theorem mem_rowSearchF {m : List Char} :
    ∀ (fuel : Nat) (s : List Char), m ∈ rowSearchF fuel s →
      ∃ t r, rowMatchAt t = some (m, r) := by
  intro fuel
  induction fuel with
  | zero =>
    intro s hm
    cases s <;> simp [rowSearchF] at hm
  | succ fuel ih =>
    intro s hm
    cases s with
    | nil => simp [rowSearchF] at hm
    | cons c rest =>
      simp only [rowSearchF] at hm
      cases hr : rowMatchAt (c :: rest) with
      | some p =>
        obtain ⟨m', r'⟩ := p
        rw [hr] at hm
        rcases List.mem_cons.mp hm with rfl | hm'
        · exact ⟨c :: rest, r', hr⟩
        · exact ih r' hm'
      | none =>
        rw [hr] at hm
        exact ih rest hm

theorem cellOf_rowSearch {g m : List Char} (hm : m ∈ rowSearch g) :
    ∃ c, cellOf m = .ok c := by
  obtain ⟨t, r, ht⟩ := mem_rowSearchF _ _ hm
  obtain ⟨pre, g₂, rfl, hnl⟩ := rowMatchAt_shape ht
  have hcell := cellMatchAt_shape g₂ [] hnl
  rw [List.append_nil] at hcell
  have hs := cellSearch_of_match (b := "<td>".data ++ g₂ ++ "\n</td>".data)
    (by rw [hcell]; simp) pre
  have hmm : pre ++ "<td>".data ++ g₂ ++ "\n</td>".data =
      pre ++ ("<td>".data ++ g₂ ++ "\n</td>".data) := by
    simp [List.append_assoc]
  rw [hmm]
  unfold cellOf
  cases hcs : cellSearch (pre ++ ("<td>".data ++ g₂ ++ "\n</td>".data)) with
  | some c => exact ⟨c, rfl⟩
  | none => rw [hcs] at hs; simp at hs

theorem exists_of_isOk {ε α : Type} {e : Except ε α} (h : e.isOk = true) :
    ∃ a, e = .ok a := by
  cases e with
  | error x => simp [Except.isOk, Except.toBool] at h
  | ok a => exact ⟨a, rfl⟩

theorem parseConjugationRows_rowSearch (g : List Char) :
    (parseConjugationRows (rowSearch g)).isOk = true := by
  rcases hr : rowSearch g with - | ⟨r0, - | ⟨r1, - | ⟨r2, - | ⟨r3, - |
    ⟨r4, - | ⟨r5, rest⟩⟩⟩⟩⟩⟩
  · rfl
  · rfl
  · rfl
  · rfl
  · rfl
  · rfl
  · obtain ⟨c0, h0⟩ := cellOf_rowSearch (g := g) (m := r0) (by rw [hr]; simp)
    obtain ⟨c1, h1⟩ := cellOf_rowSearch (g := g) (m := r1) (by rw [hr]; simp)
    obtain ⟨c2, h2⟩ := cellOf_rowSearch (g := g) (m := r2) (by rw [hr]; simp)
    obtain ⟨c3, h3⟩ := cellOf_rowSearch (g := g) (m := r3) (by rw [hr]; simp)
    obtain ⟨c4, h4⟩ := cellOf_rowSearch (g := g) (m := r4) (by rw [hr]; simp)
    obtain ⟨c5, h5⟩ := cellOf_rowSearch (g := g) (m := r5) (by rw [hr]; simp)
    simp only [parseConjugationRows, h0, h1, h2, h3, h4, h5]
    rfl

theorem tenseSlots_ok (label : List Char) (termAt : List Char → Bool)
    (text : List Char) : (tenseSlots label termAt text).isOk = true := by
  unfold tenseSlots
  cases hs : sectionSearch label termAt text with
  | none => rfl
  | some g => exact parseConjugationRows_rowSearch g

theorem parseBase_ok (text : List Char) : (parseBase text).isOk = true := by
  obtain ⟨s1, h1⟩ := exists_of_isOk (tenseSlots_ok praesensLabel termSpanAt text)
  obtain ⟨s2, h2⟩ := exists_of_isOk (tenseSlots_ok praeteritumLabel termSpanAt text)
  obtain ⟨s3, h3⟩ := exists_of_isOk (tenseSlots_ok perfektLabel termSpanAt text)
  obtain ⟨s4, h4⟩ := exists_of_isOk (tenseSlots_ok plusquamperfektLabel termTblAt text)
  obtain ⟨s5, h5⟩ := exists_of_isOk (tenseSlots_ok futur1Label termSpanAt text)
  obtain ⟨s6, h6⟩ := exists_of_isOk (tenseSlots_ok futur2Label termTblAt text)
  simp only [parseBase, h1, h2, h3, h4, h5, h6]
  rfl

/-- C1 (amended).  The parser never raises for any input (its exception
monad never reaches `.error`), and for every truthy (non-null, non-empty)
markup string it returns a record — possibly with every tense empty.  For a
null or empty input it returns `null`, not a record (see the
counterexample). -/
theorem C1_parser_total :
    (∀ t : Option String, (parseConjugationsE t).isOk = true) ∧
    (∀ s : String, s ≠ "" → ∃ c, parseConjugationsE (some s) = .ok (some c)) := by
  have hbody : ∀ l, ∃ b, parseBodyE l = .ok b := by
    intro l
    obtain ⟨b, hb⟩ := exists_of_isOk (parseBase_ok l)
    exact ⟨{ b with separablePrefix := ⟨detectPrefix b.praesens.sg1.data⟩ },
      by rw [parseBodyE, hb]; rfl⟩
  constructor
  · intro t
    cases t with
    | none => rfl
    | some s =>
      by_cases hs : s = ""
      · subst hs; rfl
      · obtain ⟨b, hb⟩ := hbody s.data
        rw [show parseConjugationsE (some s) = (parseBodyE s.data).map some from by
          simp [parseConjugationsE, hs]]
        rw [hb]
        rfl
  · intro s hs
    obtain ⟨b, hb⟩ := hbody s.data
    refine ⟨b, ?_⟩
    rw [show parseConjugationsE (some s) = (parseBodyE s.data).map some from by
      simp [parseConjugationsE, hs]]
    rw [hb]
    rfl

/-- Counterexample to C1 as stated: for null and for the empty (falsy)
markup string `parseConjugations` returns `null` (`.ok none`), not a
`ParsedVerb` record. -/
theorem C1_counterexample :
    parseConjugationsE (some "") = .ok none ∧
    parseConjugationsE none = .ok none :=
  ⟨rfl, rfl⟩

/-- Witness for C1's amended statement on a concrete non-empty input with
no usable table data. -/
theorem C1_parser_total_witness :
    (parseConjugationsE (some "<p >x")).isOk = true ∧
    ∃ c, parseConjugationsE (some "<p >x") = .ok (some c) :=
  ⟨C1_parser_total.1 (some "<p >x"), C1_parser_total.2 "<p >x" (by decide)⟩

/-! ## C8/C10: the normalized shape of slot values

`extractTextFromCell` ends in collapse/trim/split/join steps.  The lemmas
below show that the first comma-delimited alternative of its output never
contains two adjacent spaces and never starts or ends with a space, which
is what makes the source's split-on-space agree with the spec's
whitespace-delimited tokens. -/

/-- No two adjacent spaces (the residual invariant of `collapseWs`). -/
def noDblSpace (l : List Char) : Prop :=
  List.Chain' (fun a b => ¬(a = ' ' ∧ b = ' ')) l

theorem collapseWsAux_head_not_ws {l : List Char} {y : Char}
    (hh : (collapseWsAux true l).head? = some y) : isWs y = false := by
  induction l with
  | nil => simp [collapseWsAux] at hh
  | cons c rest ih =>
    by_cases hc : isWs c = true
    · rw [show collapseWsAux true (c :: rest) = collapseWsAux true rest from by
        simp [collapseWsAux, hc]] at hh
      exact ih hh
    · rw [show collapseWsAux true (c :: rest) = c :: collapseWsAux false rest from by
        simp [collapseWsAux, hc]] at hh
      simp only [List.head?_cons, Option.some.injEq] at hh
      subst hh
      simpa using hc

theorem collapseWsAux_chain (p : Bool) (l : List Char) :
    noDblSpace (collapseWsAux p l) := by
  induction l generalizing p with
  | nil => simp [collapseWsAux, noDblSpace]
  | cons c rest ih =>
    by_cases hc : isWs c = true
    · cases p with
      | true =>
        rw [show collapseWsAux true (c :: rest) = collapseWsAux true rest from by
          simp [collapseWsAux, hc]]
        exact ih true
      | false =>
        rw [show collapseWsAux false (c :: rest) = ' ' :: collapseWsAux true rest
          from by simp [collapseWsAux, hc]]
        refine List.chain'_cons'.mpr ⟨?_, ih true⟩
        intro y hy
        rw [Option.mem_def] at hy
        have hnw := collapseWsAux_head_not_ws hy
        rintro ⟨-, rfl⟩
        exact absurd hnw (by decide)
    · rw [show collapseWsAux p (c :: rest) = c :: collapseWsAux false rest from by
        simp [collapseWsAux, hc]]
      refine List.chain'_cons'.mpr ⟨?_, ih false⟩
      intro y hy
      rintro ⟨rfl, -⟩
      exact hc (by decide)

theorem splitOnChar_ne_nil (sep : Char) (l : List Char) :
    splitOnChar sep l ≠ [] := by
  cases l with
  | nil => simp [splitOnChar]
  | cons c rest =>
    cases h : splitOnChar sep rest with
    | nil => simp [splitOnChar, h]
    | cons a t =>
      simp only [splitOnChar, h]
      split <;> simp

theorem splitOnChar_headD (sep : Char) (l : List Char) :
    (splitOnChar sep l).headD [] = l.takeWhile (· ≠ sep) := by
  induction l with
  | nil => rfl
  | cons c rest ih =>
    cases h : splitOnChar sep rest with
    | nil => exact absurd h (splitOnChar_ne_nil sep rest)
    | cons a t =>
      rw [h] at ih
      simp only [List.headD_cons] at ih
      by_cases hcs : c = sep
      · rw [show splitOnChar sep (c :: rest) = [] :: a :: t from by
          simp [splitOnChar, h, hcs]]
        rw [List.headD_cons, List.takeWhile_cons, if_neg (by simp [hcs])]
      · rw [show splitOnChar sep (c :: rest) = (c :: a) :: t from by
          simp [splitOnChar, h, hcs]]
        rw [List.headD_cons, List.takeWhile_cons, if_pos (by simp [hcs]), ih]

theorem splitOnChar_eq_cons (sep : Char) (l : List Char) :
    splitOnChar sep l =
      l.takeWhile (· ≠ sep) ::
        (if l.dropWhile (· ≠ sep) = [] then []
         else splitOnChar sep (l.dropWhile (· ≠ sep)).tail) := by
  induction l with
  | nil => simp [splitOnChar]
  | cons c rest ih =>
    cases h : splitOnChar sep rest with
    | nil => exact absurd h (splitOnChar_ne_nil sep rest)
    | cons a t =>
      rw [h] at ih
      injection ih with ih1 ih2
      by_cases hcs : c = sep
      · rw [show splitOnChar sep (c :: rest) = [] :: a :: t from by
          simp [splitOnChar, h, hcs]]
        rw [show (c :: rest : List Char).takeWhile (· ≠ sep) = [] from by
          rw [List.takeWhile_cons, if_neg (by simp [hcs])]]
        rw [show (c :: rest : List Char).dropWhile (· ≠ sep) = c :: rest from by
          rw [List.dropWhile_cons, if_neg (by simp [hcs])]]
        rw [if_neg (List.cons_ne_nil c rest), List.tail_cons, h]
      · rw [show splitOnChar sep (c :: rest) = (c :: a) :: t from by
          simp [splitOnChar, h, hcs]]
        rw [show (c :: rest : List Char).takeWhile (· ≠ sep) =
            c :: rest.takeWhile (· ≠ sep) from by
          rw [List.takeWhile_cons, if_pos (by simp [hcs])]]
        rw [show (c :: rest : List Char).dropWhile (· ≠ sep) =
            rest.dropWhile (· ≠ sep) from by
          rw [List.dropWhile_cons, if_pos (by simp [hcs])]]
        rw [ih1, ih2]

theorem mem_splitOnChar_not_sep {sep : Char} {l p : List Char}
    (hp : p ∈ splitOnChar sep l) : sep ∉ p := by
  induction l generalizing p with
  | nil =>
    simp only [splitOnChar, List.mem_singleton] at hp
    subst hp; simp
  | cons c rest ih =>
    cases h : splitOnChar sep rest with
    | nil => exact absurd h (splitOnChar_ne_nil sep rest)
    | cons a t =>
      by_cases hcs : c = sep
      · rw [show splitOnChar sep (c :: rest) = [] :: a :: t from by
          simp [splitOnChar, h, hcs]] at hp
        rcases List.mem_cons.mp hp with rfl | hp2
        · simp
        · exact ih (by rw [h]; exact hp2)
      · rw [show splitOnChar sep (c :: rest) = (c :: a) :: t from by
          simp [splitOnChar, h, hcs]] at hp
        rcases List.mem_cons.mp hp with rfl | hp2
        · intro hmem
          rcases List.mem_cons.mp hmem with hsc | hsa
          · exact hcs hsc.symm
          · exact ih (by rw [h]; exact List.mem_cons_self a t) hsa
        · exact ih (by rw [h]; exact List.mem_cons_of_mem a hp2)

theorem splitOnChar_chain {R : Char → Char → Prop} {sep : Char} :
    ∀ {l : List Char}, List.Chain' R l → ∀ p ∈ splitOnChar sep l,
      List.Chain' R p := by
  intro l
  induction l with
  | nil =>
    intro _ p hp
    simp only [splitOnChar, List.mem_singleton] at hp
    subst hp; simp
  | cons c rest ih =>
    intro hch p hp
    have hrest : List.Chain' R rest := hch.tail
    cases h : splitOnChar sep rest with
    | nil => exact absurd h (splitOnChar_ne_nil sep rest)
    | cons a t =>
      by_cases hcs : c = sep
      · rw [show splitOnChar sep (c :: rest) = [] :: a :: t from by
          simp [splitOnChar, h, hcs]] at hp
        rcases List.mem_cons.mp hp with rfl | hp2
        · simp
        · exact ih hrest p (by rw [h]; exact hp2)
      · rw [show splitOnChar sep (c :: rest) = (c :: a) :: t from by
          simp [splitOnChar, h, hcs]] at hp
        rcases List.mem_cons.mp hp with rfl | hp2
        · have ha : a = rest.takeWhile (· ≠ sep) := by
            have hh := splitOnChar_headD sep rest
            rw [h] at hh
            simpa using hh
          rw [ha]
          exact hch.prefix
            (List.cons_prefix_cons.mpr ⟨rfl, List.takeWhile_prefix _⟩)
        · exact ih hrest p (by rw [h]; exact List.mem_cons_of_mem a hp2)

theorem dropWhile_head_false {p : Char → Bool} :
    ∀ {l : List Char} {x : Char}, (l.dropWhile p).head? = some x →
      p x = false := by
  intro l
  induction l with
  | nil => intro x hx; simp at hx
  | cons c rest ih =>
    intro x hx
    by_cases hc : p c = true
    · rw [List.dropWhile_cons, if_pos hc] at hx
      exact ih hx
    · rw [List.dropWhile_cons, if_neg hc] at hx
      simp only [List.head?_cons, Option.some.injEq] at hx
      subst hx
      simpa using hc

theorem suffix_getLast? {l₁ l₂ : List Char} (h : l₁ <:+ l₂) (hne : l₁ ≠ []) :
    l₂.getLast? = l₁.getLast? := by
  obtain ⟨pre, rfl⟩ := h
  rw [List.getLast?_append]
  cases hg : l₁.getLast? with
  | none => exact absurd (List.getLast?_eq_none_iff.mp hg) hne
  | some x => rfl

theorem trimL_isInfix (l : List Char) : trimL l <:+: l := by
  have h1 : l.dropWhile isWs <:+ l := List.dropWhile_suffix isWs
  have h2 : ((l.dropWhile isWs).reverse.dropWhile isWs).reverse <+:
      (l.dropWhile isWs).reverse.reverse :=
    List.reverse_prefix.mpr (List.dropWhile_suffix isWs)
  rw [List.reverse_reverse] at h2
  exact h2.isInfix.trans h1.isInfix

theorem trimL_getLast_not_ws {l : List Char} {x : Char}
    (hx : (trimL l).getLast? = some x) : isWs x = false := by
  unfold trimL at hx
  rw [List.getLast?_reverse] at hx
  exact dropWhile_head_false hx

theorem trimL_head_not_ws {l : List Char} {x : Char}
    (hx : (trimL l).head? = some x) : isWs x = false := by
  unfold trimL at hx
  rw [List.head?_reverse] at hx
  have hBne : (l.dropWhile isWs).reverse.dropWhile isWs ≠ [] := by
    intro h0; rw [h0] at hx; simp at hx
  have hgl := suffix_getLast? (List.dropWhile_suffix (l := (l.dropWhile isWs).reverse) isWs) hBne
  rw [← hgl, List.getLast?_reverse] at hx
  exact dropWhile_head_false hx

theorem dropWhile_eq_self_of_head {p : Char → Bool} {l : List Char}
    (h : ∀ x, l.head? = some x → p x = false) : l.dropWhile p = l := by
  cases l with
  | nil => rfl
  | cons c rest => rw [List.dropWhile_cons, if_neg (by simp [h c rfl])]

theorem trimL_idem (l : List Char) : trimL (trimL l) = trimL l := by
  have h1 : (trimL l).dropWhile isWs = trimL l :=
    dropWhile_eq_self_of_head fun x hx => trimL_head_not_ws hx
  have h2 : (trimL l).reverse.dropWhile isWs = (trimL l).reverse := by
    refine dropWhile_eq_self_of_head fun x hx => ?_
    rw [List.head?_reverse] at hx
    exact trimL_getLast_not_ws hx
  show (((trimL l).dropWhile isWs).reverse.dropWhile isWs).reverse = trimL l
  rw [h1, h2, List.reverse_reverse]

/-- The shape of a normalized form: no two adjacent spaces and no space at
either end.  Under this shape the source's split-on-space yields no empty
pieces, so `parts` are exactly the spec's whitespace-delimited tokens. -/
def goodForm (F : List Char) : Prop :=
  noDblSpace F ∧ (∀ x, F.head? = some x → x ≠ ' ') ∧
    (∀ x, F.getLast? = some x → x ≠ ' ')

theorem goodForm_nil : goodForm [] := by
  refine ⟨List.chain'_nil, ?_, ?_⟩ <;> intro x hx <;> simp at hx

theorem goodForm_trim_piece {x p : List Char}
    (hp : p ∈ splitOnChar ',' (collapseWs x)) : goodForm (trimL p) := by
  have hch : noDblSpace p := splitOnChar_chain (collapseWsAux_chain false x) p hp
  refine ⟨?_, ?_, ?_⟩
  · exact List.Chain'.infix hch (trimL_isInfix p)
  · intro y hy hsp
    have hnw := trimL_head_not_ws hy
    subst hsp
    exact absurd hnw (by decide)
  · intro y hy hsp
    have hnw := trimL_getLast_not_ws hy
    subst hsp
    exact absurd hnw (by decide)

theorem good_no_empty_aux :
    ∀ (n : Nat) (F : List Char), F.length ≤ n → goodForm F → F ≠ [] →
      ∀ p ∈ splitOnChar ' ' F, p ≠ [] := by
  intro n
  induction n with
  | zero =>
    intro F hlen _ hne p _
    exact absurd (List.length_eq_zero.mp (Nat.le_zero.mp hlen)) hne
  | succ n ih =>
    intro F hlen hg hne p hp
    rw [splitOnChar_eq_cons] at hp
    rcases List.mem_cons.mp hp with rfl | hp2
    · obtain ⟨c, F', rfl⟩ := List.exists_cons_of_ne_nil hne
      have hc : c ≠ ' ' := hg.2.1 c rfl
      intro h0
      rw [List.takeWhile_cons, if_pos (by simp [hc])] at h0
      exact List.cons_ne_nil _ _ h0
    · split at hp2
      case isTrue => simp at hp2
      case isFalse hdne =>
        obtain ⟨d, ds, hd⟩ := List.exists_cons_of_ne_nil hdne
        have hsfx : F.dropWhile (· ≠ ' ') <:+ F := List.dropWhile_suffix _
        have hdsp : d = ' ' := by
          have hh := dropWhile_head_false (p := fun c => decide (c ≠ ' '))
            (l := F) (x := d) (by rw [hd]; rfl)
          simpa using hh
        have hch_d : List.Chain' (fun a b => ¬(a = ' ' ∧ b = ' ')) (d :: ds) := by
          have hs := List.Chain'.suffix hg.1 hsfx
          rwa [hd] at hs
        have hhead : ∀ x, ds.head? = some x → x ≠ ' ' := by
          intro x hx hsp
          exact (List.chain'_cons'.mp hch_d).1 x
            (by rw [Option.mem_def, hx]) ⟨hdsp, hsp⟩
        have hdsne : ds ≠ [] := by
          intro h0
          subst h0
          have hone : [d] <:+ F := by rw [← hd]; exact hsfx
          have hgl := suffix_getLast? hone (by simp)
          exact hg.2.2 d (hgl.trans rfl) hdsp
        have hglast : ∀ x, ds.getLast? = some x → x ≠ ' ' := by
          intro x hx
          have hds_sfx : ds <:+ F := by
            refine List.IsSuffix.trans (List.suffix_cons d ds) ?_
            rw [← hd]; exact hsfx
          have hgl := suffix_getLast? hds_sfx hdsne
          exact hg.2.2 x (by rw [hgl, hx])
        have hlen2 : ds.length ≤ n := by
          have hle : (F.dropWhile (· ≠ ' ')).length ≤ F.length :=
            List.IsSuffix.length_le hsfx
          rw [hd] at hle
          simp only [List.length_cons] at hle
          omega
        have htail : (F.dropWhile (· ≠ ' ')).tail = ds := by rw [hd]; rfl
        rw [htail] at hp2
        exact ih ds hlen2 ⟨hch_d.tail, hhead, hglast⟩ hdsne p hp2

theorem good_no_empty {F : List Char} (hg : goodForm F) (hne : F ≠ []) :
    ∀ p ∈ splitOnChar ' ' F, p ≠ [] :=
  good_no_empty_aux F.length F le_rfl hg hne

theorem splitOnChar_length_two {l : List Char} {sep : Char} (h : sep ∈ l) :
    2 ≤ (splitOnChar sep l).length := by
  rw [splitOnChar_eq_cons]
  have hd : l.dropWhile (· ≠ sep) ≠ [] := by
    rw [Ne, List.dropWhile_eq_nil_iff]
    push_neg
    exact ⟨sep, h, by simp⟩
  rw [if_neg hd]
  cases hsp : splitOnChar sep (l.dropWhile (· ≠ sep)).tail with
  | nil => exact absurd hsp (splitOnChar_ne_nil _ _)
  | cons a t => simp

theorem takeWhile_all {p : Char → Bool} :
    ∀ {a : List Char}, (∀ c ∈ a, p c = true) → a.takeWhile p = a := by
  intro a
  induction a with
  | nil => intro _; rfl
  | cons c rest ih =>
    intro h
    rw [List.takeWhile_cons, if_pos (h c (List.mem_cons_self c rest)),
      ih fun d hd => h d (List.mem_cons_of_mem c hd)]

theorem takeWhile_append_stop {p : Char → Bool} {a z : List Char} {c : Char}
    (ha : ∀ d ∈ a, p d = true) (hc : p c = false) :
    (a ++ c :: z).takeWhile p = a := by
  induction a with
  | nil => rw [List.nil_append, List.takeWhile_cons, if_neg (by simp [hc])]
  | cons d rest ih =>
    rw [List.cons_append, List.takeWhile_cons,
      if_pos (ha d (List.mem_cons_self d rest)),
      ih fun e he => ha e (List.mem_cons_of_mem d he)]

/-- The first comma-alternative of `extractTextFromCell`'s output, after
the source's `trim()`, has the normalized shape: the join's first segment
is a trimmed piece of the comma-split of a `collapseWs` image, and the
join separator `", "` starts with a comma. -/
theorem out_first_good (x : List Char) :
    goodForm (trimL ((splitOnChar ','
      (joinL ", ".data (((splitOnChar ',' (collapseWs x)).map trimL).filter
        (· ≠ [])))).headD [])) := by
  rw [splitOnChar_headD]
  cases h : ((splitOnChar ',' (collapseWs x)).map trimL).filter (· ≠ []) with
  | nil => exact goodForm_nil
  | cons s0 rest =>
    have hs0m : s0 ∈ (splitOnChar ',' (collapseWs x)).map trimL :=
      (List.mem_filter.mp (by rw [h]; exact List.mem_cons_self s0 rest)).1
    obtain ⟨q, hq, hqs⟩ := List.mem_map.mp hs0m
    have hnc : ∀ d ∈ s0, d ≠ ',' := by
      intro d hd hdc
      subst hdc
      rw [← hqs] at hd
      exact mem_splitOnChar_not_sep hq (List.IsInfix.subset (trimL_isInfix q) hd)
    have hjoin : (joinL ", ".data (s0 :: rest)).takeWhile (· ≠ ',') = s0 := by
      cases rest with
      | nil =>
        show (joinL ", ".data [s0]).takeWhile (· ≠ ',') = s0
        rw [show joinL ", ".data [s0] = s0 from rfl]
        exact takeWhile_all fun c hc => by simp [hnc c hc]
      | cons s1 rest' =>
        rw [show joinL ", ".data (s0 :: s1 :: rest') =
            s0 ++ ',' :: ' ' :: joinL ", ".data (s1 :: rest') from by
          rw [joinL]
          rw [show (", ".data : List Char) = [',', ' '] from rfl]
          rw [List.append_assoc]
          rfl]
        exact takeWhile_append_stop (fun d hd => by simp [hnc d hd]) (by simp)
    rw [hjoin, ← hqs, trimL_idem]
    exact goodForm_trim_piece hq

theorem firstForm_good (cell : List Char) :
    goodForm (trimL ((splitOnChar ',' (extractTextFromCell cell)).headD [])) :=
  out_first_good
    (replaceAlts reflexiveAlts [] false
      (replaceAlts pronounAlts ",".data false
        (replaceAlts ["er/sie/es".data] ",".data false
          (trimL (collapseWs (stripEntities (stripTags (stripSup cell))))))))

/-- On any slot value whose first comma-alternative has the normalized
shape, the source's detection (split on `' '`, length guard, drop the
stem, filter reflexives) agrees with the spec's formulation in terms of
whitespace-delimited tokens. -/
theorem detect_eq_spec {sg1 : List Char}
    (hg : goodForm (trimL ((splitOnChar ',' sg1).headD []))) :
    detectPrefix sg1 = specSepPrefix sg1 := by
  by_cases h0 : sg1 = []
  · subst h0; rfl
  · unfold detectPrefix specSepPrefix
    rw [if_neg h0]
    simp only []
    by_cases hc : (trimL ((splitOnChar ',' sg1).headD [])).contains ' ' = true
    · rw [if_pos hc, if_pos hc]
      have hFne : trimL ((splitOnChar ',' sg1).headD []) ≠ [] := by
        intro h1; rw [h1] at hc; simp [List.contains] at hc
      have hmem : ' ' ∈ trimL ((splitOnChar ',' sg1).headD []) :=
        List.elem_iff.mp hc
      rw [if_pos (splitOnChar_length_two hmem)]
      have htok : wsTokens (trimL ((splitOnChar ',' sg1).headD [])) =
          splitOnChar ' ' (trimL ((splitOnChar ',' sg1).headD [])) := by
        unfold wsTokens
        refine List.filter_eq_self.mpr fun p hp => ?_
        simpa using good_no_empty hg hFne p hp
      rw [htok]
    · rw [if_neg hc, if_neg hc]

theorem parseConjugationRows_rowSearch_sg1 (g : List Char) {sl : SlotSet}
    (h : parseConjugationRows (rowSearch g) = .ok sl) :
    sl.sg1 = "" ∨ ∃ cell, sl.sg1 = String.mk (extractTextFromCell cell) := by
  rcases hr : rowSearch g with - | ⟨r0, - | ⟨r1, - | ⟨r2, - | ⟨r3, - |
    ⟨r4, - | ⟨r5, rest⟩⟩⟩⟩⟩⟩ <;> rw [hr] at h
  case nil =>
    have h' : (Except.ok emptySlots : Except Unit SlotSet) = .ok sl := h
    injection h' with he; subst he; left; rfl
  case cons.nil =>
    have h' : (Except.ok emptySlots : Except Unit SlotSet) = .ok sl := h
    injection h' with he; subst he; left; rfl
  case cons.cons.nil =>
    have h' : (Except.ok emptySlots : Except Unit SlotSet) = .ok sl := h
    injection h' with he; subst he; left; rfl
  case cons.cons.cons.nil =>
    have h' : (Except.ok emptySlots : Except Unit SlotSet) = .ok sl := h
    injection h' with he; subst he; left; rfl
  case cons.cons.cons.cons.nil =>
    have h' : (Except.ok emptySlots : Except Unit SlotSet) = .ok sl := h
    injection h' with he; subst he; left; rfl
  case cons.cons.cons.cons.cons.nil =>
    have h' : (Except.ok emptySlots : Except Unit SlotSet) = .ok sl := h
    injection h' with he; subst he; left; rfl
  case cons.cons.cons.cons.cons.cons =>
    obtain ⟨c0, h0⟩ := cellOf_rowSearch (g := g) (m := r0) (by rw [hr]; simp)
    obtain ⟨c1, h1⟩ := cellOf_rowSearch (g := g) (m := r1) (by rw [hr]; simp)
    obtain ⟨c2, h2⟩ := cellOf_rowSearch (g := g) (m := r2) (by rw [hr]; simp)
    obtain ⟨c3, h3⟩ := cellOf_rowSearch (g := g) (m := r3) (by rw [hr]; simp)
    obtain ⟨c4, h4⟩ := cellOf_rowSearch (g := g) (m := r4) (by rw [hr]; simp)
    obtain ⟨c5, h5⟩ := cellOf_rowSearch (g := g) (m := r5) (by rw [hr]; simp)
    simp only [parseConjugationRows, h0, h1, h2, h3, h4, h5] at h
    have h' : (Except.ok (⟨String.mk (extractTextFromCell c0),
        String.mk (extractTextFromCell c1), String.mk (extractTextFromCell c2),
        String.mk (extractTextFromCell c3), String.mk (extractTextFromCell c4),
        String.mk (extractTextFromCell c5)⟩ : SlotSet) :
        Except Unit SlotSet) = .ok sl := h
    injection h' with he
    subst he
    right
    exact ⟨c0, rfl⟩

theorem tenseSlots_sg1 {label : List Char} {termAt : List Char → Bool}
    {text : List Char} {sl : SlotSet}
    (h : tenseSlots label termAt text = .ok sl) :
    sl.sg1 = "" ∨ ∃ cell, sl.sg1 = String.mk (extractTextFromCell cell) := by
  unfold tenseSlots at h
  cases hs : sectionSearch label termAt text with
  | none =>
    rw [hs] at h
    have h' : (Except.ok emptySlots : Except Unit SlotSet) = .ok sl := h
    injection h' with he; subst he; left; rfl
  | some g =>
    rw [hs] at h
    exact parseConjugationRows_rowSearch_sg1 g h

/-- Field inversion of `parseBase`: the pr채sens slot set is the one
produced by its tense extraction, and the separable prefix is still the
initial empty string. -/
theorem parseBase_praesens {text : List Char} {b : ParsedVerb}
    (hb : parseBase text = .ok b) :
    tenseSlots praesensLabel termSpanAt text = .ok b.praesens ∧
      b.separablePrefix = "" ∧ b.infinitive = String.mk (infOf text) := by
  obtain ⟨s1, h1⟩ := exists_of_isOk (tenseSlots_ok praesensLabel termSpanAt text)
  obtain ⟨s2, h2⟩ := exists_of_isOk (tenseSlots_ok praeteritumLabel termSpanAt text)
  obtain ⟨s3, h3⟩ := exists_of_isOk (tenseSlots_ok perfektLabel termSpanAt text)
  obtain ⟨s4, h4⟩ := exists_of_isOk (tenseSlots_ok plusquamperfektLabel termTblAt text)
  obtain ⟨s5, h5⟩ := exists_of_isOk (tenseSlots_ok futur1Label termSpanAt text)
  obtain ⟨s6, h6⟩ := exists_of_isOk (tenseSlots_ok futur2Label termTblAt text)
  simp only [parseBase, h1, h2, h3, h4, h5, h6] at hb
  have hb' : (Except.ok (⟨"", String.mk (infOf text), s1, s2, s3, s4, s5, s6⟩ :
      ParsedVerb) : Except Unit ParsedVerb) = .ok b := hb
  injection hb' with he
  subst he
  exact ⟨h1, rfl, rfl⟩

theorem data_mk (l : List Char) : (String.mk l).data = l := rfl

/-- The pr채sens `sg1` of any `parseBase` output has the normalized
first-alternative shape. -/
theorem parseBase_sg1_good {text : List Char} {b : ParsedVerb}
    (hb : parseBase text = .ok b) :
    goodForm (trimL ((splitOnChar ',' b.praesens.sg1.data).headD [])) := by
  obtain ⟨hpr, -, -⟩ := parseBase_praesens hb
  rcases tenseSlots_sg1 hpr with he | ⟨cell, hc⟩
  · rw [he]
    rw [show (("" : String).data : List Char) = [] from rfl]
    exact goodForm_nil
  · rw [hc, data_mk]
    exact firstForm_good cell

/-- C8.  Separable-prefix detection: for every successfully parsed
non-empty markup, the returned record is the base record with
`separablePrefix` set to exactly the spec's detection on the pr채sens
`sg1` slot — the first comma-delimited alternative's
whitespace-delimited tokens after the first, excluding reflexive-pronoun
tokens, joined by spaces when an internal space is present, and empty
otherwise — while the `sg1` slot value itself is left unchanged. -/
theorem C8_separable_prefix_detection (s : String) (b : ParsedVerb)
    (hs : s ≠ "") (hb : parseBase s.data = .ok b) :
    parseConjugationsE (some s) =
      .ok (some { b with
        separablePrefix := String.mk (specSepPrefix b.praesens.sg1.data) }) ∧
    ∀ c, parseConjugationsE (some s) = .ok (some c) →
      c.praesens.sg1 = b.praesens.sg1 := by
  have hd : detectPrefix b.praesens.sg1.data = specSepPrefix b.praesens.sg1.data :=
    detect_eq_spec (parseBase_sg1_good hb)
  have hmain : parseConjugationsE (some s) =
      .ok (some { b with
        separablePrefix := String.mk (specSepPrefix b.praesens.sg1.data) }) := by
    rw [show parseConjugationsE (some s) = (parseBodyE s.data).map some from by
      simp [parseConjugationsE, hs]]
    unfold parseBodyE
    rw [hb]
    simp only [Except.map]
    rw [hd]
  refine ⟨hmain, fun c hc => ?_⟩
  rw [hmain] at hc
  simp only [Except.ok.injEq, Option.some.injEq] at hc
  rw [← hc]

/-- One conjugation-table row of the witness markup: the person cell
carries an attribute, the form cell is the plain `<td>` the inner cell
regex matches. -/
def c8Row (person form : String) : String :=
  "<tr>\n<td x><small>" ++ person ++ "</small>\n</td>\n<td>" ++ form ++
    "\n</td>\n"

/-- Witness markup: one Pr채sens section whose forms carry the separable
prefix `auf`. -/
def c8Ex : String :=
  "<td colspan=\"2\"><b><a>Pr채sens</a></b>\n</td></tr>" ++
  c8Row "ich" "stehe auf" ++ c8Row "du" "stehst auf" ++
  c8Row "er" "steht auf" ++ c8Row "wir" "stehen auf" ++
  c8Row "ihr" "steht auf" ++ c8Row "sie" "stehen auf" ++
  "<td colspan=\"2\"><span>"

/-- The base record `parseBase` produces for `c8Ex`. -/
def c8Base : ParsedVerb :=
  ⟨"", "", ⟨"stehe auf", "stehst auf", "steht auf", "stehen auf",
    "steht auf", "stehen auf"⟩, emptySlots, emptySlots, emptySlots,
    emptySlots, emptySlots⟩

set_option maxRecDepth 40000 in
/-- Witness for C8 at the spec's own example: pr채sens `sg1` "stehe auf"
yields separable prefix "auf" and the slot value is kept. -/
theorem C8_separable_prefix_detection_witness :
    parseConjugationsE (some c8Ex) =
      .ok (some { c8Base with
        separablePrefix := String.mk (specSepPrefix c8Base.praesens.sg1.data) }) ∧
    c8Base.praesens.sg1 = "stehe auf" ∧
    String.mk (specSepPrefix c8Base.praesens.sg1.data) = "auf" :=
  ⟨(C8_separable_prefix_detection c8Ex c8Base (by decide) (by rfl)).1, rfl, rfl⟩

/-- Inversion of a successful parse: the record is the `parseBase` record
with the detected prefix filled in. -/
theorem parseConjugationsE_inv {s : String} {c : ParsedVerb}
    (h : parseConjugationsE (some s) = .ok (some c)) :
    ∃ b, parseBase s.data = .ok b ∧
      c = { b with
        separablePrefix := String.mk (detectPrefix b.praesens.sg1.data) } := by
  by_cases hs : s = ""
  · rw [hs] at h
    exact absurd h (by simp [parseConjugationsE])
  · rw [show parseConjugationsE (some s) = (parseBodyE s.data).map some from by
      simp [parseConjugationsE, hs]] at h
    obtain ⟨b, hb⟩ := exists_of_isOk (parseBase_ok s.data)
    refine ⟨b, hb, ?_⟩
    unfold parseBodyE at h
    rw [hb] at h
    simp only [Except.map] at h
    simp only [Except.ok.injEq, Option.some.injEq] at h
    exact h.symm

/-- "No separable prefix is detected": the first comma-alternative of the
slot has no internal space, or every whitespace token after the stem is a
reflexive pronoun. -/
def noPrefixCond (sg1 : List Char) : Prop :=
  (trimL ((splitOnChar ',' sg1).headD [])).contains ' ' = false ∨
  ((wsTokens (trimL ((splitOnChar ',' sg1).headD []))).drop 1).all
    isReflexTok = true

theorem specSepPrefix_empty {sg1 : List Char} (hnp : noPrefixCond sg1) :
    specSepPrefix sg1 = [] := by
  unfold specSepPrefix
  simp only []
  rcases hnp with hnp | hnp
  · rw [if_neg (show ¬(trimL ((splitOnChar ',' sg1).headD [])).contains ' ' =
      true from by rw [hnp]; decide)]
  · by_cases hcon :
      (trimL ((splitOnChar ',' sg1).headD [])).contains ' ' = true
    · rw [if_pos hcon]
      rw [show (((wsTokens (trimL ((splitOnChar ',' sg1).headD []))).drop
          1).filter (fun p => ¬ isReflexTok p)) = [] from
        List.filter_eq_nil_iff.mpr fun p hp => by
          have hr := List.all_eq_true.mp hnp p hp
          simp [hr]]
      rfl
    · rw [if_neg hcon]

/-- C10.  Whenever no separable prefix is detected — no internal space in
the first alternative of pr채sens `sg1`, or only reflexive-pronoun tokens
after the stem — the parsed record's `separablePrefix` is the empty
string (never null), and exactly that empty string is what the verb-row
insert receives. -/
theorem C10_empty_prefix (s : String) (c : ParsedVerb)
    (h : parseConjugationsE (some s) = .ok (some c))
    (hnp : noPrefixCond c.praesens.sg1.data) :
    c.separablePrefix = "" ∧
    ∀ inf, (verbInsertArgs inf c).separablePrefix = some "" := by
  obtain ⟨b, hb, hc⟩ := parseConjugationsE_inv h
  have hpre : c.praesens = b.praesens := by rw [hc]
  have hd : detectPrefix b.praesens.sg1.data =
      specSepPrefix b.praesens.sg1.data :=
    detect_eq_spec (parseBase_sg1_good hb)
  have h1 : c.separablePrefix = "" := by
    rw [hc]
    show String.mk (detectPrefix b.praesens.sg1.data) = ""
    rw [hd]
    rw [show specSepPrefix b.praesens.sg1.data =
        specSepPrefix c.praesens.sg1.data from by rw [hpre]]
    rw [specSepPrefix_empty hnp]
  refine ⟨h1, fun inf => ?_⟩
  unfold verbInsertArgs
  show some c.separablePrefix = some ""
  rw [h1]

/-- One tense section of the witness markup, in the row format of `c8Row`,
closed by the span terminator the section regexes expect. -/
def c4Sec (label : String) (f1 f2 f3 f4 f5 f6 : String) : String :=
  "<td colspan=\"2\"><b><a>" ++ label ++ "</a></b>\n</td></tr>" ++
  c8Row "ich" f1 ++ c8Row "du" f2 ++ c8Row "er" f3 ++
  c8Row "wir" f4 ++ c8Row "ihr" f5 ++ c8Row "sie" f6 ++
  "<td colspan=\"2\"><span>"

/-- Witness markup for C10: pr채sens forms with no internal space. -/
def c10Ex : String :=
  c4Sec "Pr채sens" "gehe" "gehst" "geht" "gehen" "geht" "gehen"

/-- The record parsed from `c10Ex`. -/
def c10Parsed : ParsedVerb :=
  ⟨"", "", ⟨"gehe", "gehst", "geht", "gehen", "geht", "gehen"⟩,
    emptySlots, emptySlots, emptySlots, emptySlots, emptySlots⟩

set_option maxRecDepth 40000 in
/-- Witness for C10: "gehe" has no internal space, the parsed prefix is
`""`, and the verb-row arguments carry `some ""`. -/
theorem C10_empty_prefix_witness :
    parseConjugationsE (some c10Ex) = .ok (some c10Parsed) ∧
    noPrefixCond c10Parsed.praesens.sg1.data ∧
    c10Parsed.separablePrefix = "" ∧
    (verbInsertArgs "gehen" c10Parsed).separablePrefix = some "" := by
  have h := C10_empty_prefix c10Ex c10Parsed (by rfl) (Or.inl (by rfl))
  exact ⟨by rfl, Or.inl (by rfl), h.1, h.2 "gehen"⟩

/-- C4 (amended).  The writes for a parsed verb consider only the
required trio pr채sens, pr채teritum, perfekt: if all three pass the
six-slot completeness check, the verb row plus exactly those three
conjugation rows are written; otherwise nothing is persisted.  Optional
tenses are never written, even when individually complete (see the
counterexample). -/
theorem C4_accepted_writes (inf : String) (c : ParsedVerb) :
    stepWrites inf c =
      if hasAllForms c.praesens ∧ hasAllForms c.praeteritum ∧
          hasAllForms c.perfekt
      then [.verb (verbInsertArgs inf c), .conj "praesens" c.praesens,
            .conj "praeteritum" c.praeteritum, .conj "perfekt" c.perfekt]
      else [] := by
  unfold stepWrites validTenses
  by_cases h1 : hasAllForms c.praesens <;>
    by_cases h2 : hasAllForms c.praeteritum <;>
      by_cases h3 : hasAllForms c.perfekt <;>
        simp [h1, h2, h3]

/-- Witness markup for C4's counterexample: four individually complete
tenses, among them the optional Futur I. -/
def c4Ex : String :=
  c4Sec "Pr채sens" "gehe" "gehst" "geht" "gehen" "geht" "gehen" ++
  c4Sec "Pr채teritum" "ging" "gingst" "ging" "gingen" "gingt" "gingen" ++
  c4Sec "Perfekt" "bin gegangen" "bist gegangen" "ist gegangen"
    "sind gegangen" "seid gegangen" "sind gegangen" ++
  c4Sec "Futur I" "werde gehen" "wirst gehen" "wird gehen"
    "werden gehen" "werdet gehen" "werden gehen"

/-- The record parsed from `c4Ex`. -/
def c4Parsed : ParsedVerb :=
  ⟨"", "", ⟨"gehe", "gehst", "geht", "gehen", "geht", "gehen"⟩,
    ⟨"ging", "gingst", "ging", "gingen", "gingt", "gingen"⟩,
    ⟨"bin gegangen", "bist gegangen", "ist gegangen", "sind gegangen",
      "seid gegangen", "sind gegangen"⟩,
    emptySlots,
    ⟨"werde gehen", "wirst gehen", "wird gehen", "werden gehen",
      "werdet gehen", "werden gehen"⟩,
    emptySlots⟩

set_option maxRecDepth 100000 in
/-- Counterexample to C4 as stated: a parsed verb whose optional Futur I
tense individually passes the completeness check, yet the written record
is not the ParsedVerb restricted to all complete tenses — Futur I is
silently dropped, only the required trio is written. -/
theorem C4_counterexample :
    parseConjugationsE (some c4Ex) = .ok (some c4Parsed) ∧
    hasAllForms c4Parsed.futur1 = true ∧
    stepWrites "gehen" c4Parsed ≠ specAcceptedWrites "gehen" c4Parsed :=
  ⟨by rfl, by rfl, by decide⟩
